import Mathlib

set_option maxRecDepth 4000

/-!
# HexHunter — verification of the GPU vanity-address core

A shallow embedding of the secp256k1 GPU pipeline of the HexHunter
repository: the 256-bit word arithmetic of the OpenCL kernel
(`vanity_v4.cl`), its mixed Jacobian point addition, the workgroup batch
inversion, Keccak-256, the precomputed table generator and the host
orchestrator, together with proofs of the specification claims.

Machine words are modelled as `Nat` with explicit `% 2^32` / `% 2^64`
where the C code truncates; a `uint256` is a little-endian list of eight
32-bit words, exactly as in the kernel source.
-/

namespace HexHunter

/-- The secp256k1 field prime `p = 2^256 - 2^32 - 977`. -/
def pval : Nat := 2 ^ 256 - 2 ^ 32 - 977

/-- The kernel constant `P_CONST`: `p` as eight little-endian 32-bit words. -/
def P_CONST : List Nat :=
  [0xFFFFFC2F, 0xFFFFFFFE, 0xFFFFFFFF, 0xFFFFFFFF,
   0xFFFFFFFF, 0xFFFFFFFF, 0xFFFFFFFF, 0xFFFFFFFF]

/-- Value of a little-endian list of 32-bit words. -/
def wval : List Nat → Nat
  | [] => 0
  | w :: ws => w + 2 ^ 32 * wval ws

/-- All entries are machine `uint` values (below `2^32`). -/
def wordsLt (a : List Nat) : Prop := ∀ w ∈ a, w < 2 ^ 32

instance (a : List Nat) : Decidable (wordsLt a) := by
  unfold wordsLt; infer_instance

theorem wval_P_CONST : wval P_CONST = pval := by decide

theorem pval_lt : pval < 2 ^ 256 := by decide

theorem pval_pos : 0 < pval := by decide

/-- `2^256 < 2 * pval`: one conditional subtraction reduces any
256-bit value below `2^257` into `[0, 2^256)`. -/
theorem two_pval : 2 ^ 256 < 2 * pval := by decide

/-! ## Kernel low-level arithmetic (`vanity_v4.cl`)

`add_c`, `sub_b`, `gte` translate the word loops of the kernel; the
extra `Nat` argument is the running carry / borrow of the C loop. -/

/-- `add_c`: 256-bit addition with carry-out
(`ulong s = a + b + c; r = (uint)s; c = s >> 32`). -/
def addC : List Nat → List Nat → Nat → List Nat × Nat
  | a :: as, b :: bs, c =>
      let s := a + b + c
      let r := addC as bs (s / 2 ^ 32)
      (s % 2 ^ 32 :: r.1, r.2)
  | _, _, c => ([], c)

def add_c (a b : List Nat) : List Nat × Nat := addC a b 0

/-- `sub_b`: 256-bit subtraction with borrow-out
(`long d = a - b - br; r = (uint)d; br = d < 0`). -/
def subB : List Nat → List Nat → Nat → List Nat × Nat
  | a :: as, b :: bs, br =>
      let r :=
        if b + br ≤ a then (a - (b + br), 0)
        else (a + 2 ^ 32 - (b + br), 1)
      let t := subB as bs r.2
      (r.1 :: t.1, t.2)
  | _, _, br => ([], br)

def sub_b (a b : List Nat) : List Nat × Nat := subB a b 0

/-- `gte` compares from the most significant word down and returns
true on equality; this helper takes the reversed (big-endian) lists. -/
def gteRev : List Nat → List Nat → Bool
  | a :: as, b :: bs => if a > b then true else if a < b then false else gteRev as bs
  | _, _ => true

def gte (a b : List Nat) : Bool := gteRev a.reverse b.reverse

/-- `mod_add`: add then conditionally subtract `p`
(`if (add_c(r,a,b) || gte(r,&P)) sub_b(r,r,&P)`). -/
def mod_add (a b : List Nat) : List Nat :=
  let r := add_c a b
  if r.2 ≠ 0 ∨ gte r.1 P_CONST then (sub_b r.1 P_CONST).1 else r.1

/-- `mod_sub`: subtract then conditionally add `p` back
(`if (sub_b(r,a,b)) add_c(r,r,&P)`). -/
def mod_sub (a b : List Nat) : List Nat :=
  let r := sub_b a b
  if r.2 ≠ 0 then (add_c r.1 P_CONST).1 else r.1

/-! ### Value and bound lemmas for the word loops -/

theorem wval_lt_of_wordsLt {a : List Nat} (h : wordsLt a) :
    wval a < 2 ^ (32 * a.length) := by
  induction a with
  | nil => simp [wval]
  | cons w ws ih =>
      have hw : w < 2 ^ 32 := h w (List.mem_cons_self _ _)
      have hws : wordsLt ws := fun x hx => h x (List.mem_cons_of_mem _ hx)
      have := ih hws
      simp only [wval, List.length_cons]
      have : w + 2 ^ 32 * wval ws + 1 ≤ 2 ^ 32 + 2 ^ 32 * wval ws := by omega
      have h2 : 2 ^ 32 + 2 ^ 32 * wval ws ≤ 2 ^ 32 * 2 ^ (32 * ws.length) := by
        have := ih hws
        nlinarith [ih hws]
      calc w + 2 ^ 32 * wval ws < 2 ^ 32 + 2 ^ 32 * wval ws := by omega
        _ ≤ 2 ^ 32 * 2 ^ (32 * ws.length) := h2
        _ = 2 ^ (32 * (ws.length + 1)) := by rw [← pow_add]; ring_nf

theorem addC_spec {a b : List Nat} (hlen : a.length = b.length) (c : Nat) :
    wval (addC a b c).1 + 2 ^ (32 * a.length) * (addC a b c).2
      = wval a + wval b + c ∧
    (addC a b c).1.length = a.length ∧ wordsLt (addC a b c).1 := by
  induction a generalizing b c with
  | nil =>
      cases b with
      | nil => simp [addC, wval, wordsLt]
      | cons x xs => simp at hlen
  | cons x xs ih =>
      cases b with
      | nil => simp at hlen
      | cons y ys =>
          simp only [List.length_cons, Nat.succ_inj] at hlen
          obtain ⟨hv, hl, hw⟩ := ih hlen ((x + y + c) / 2 ^ 32)
          refine ⟨?_, by simpa [addC] using hl, ?_⟩
          · simp only [addC, wval, List.length_cons]
            have hdm := Nat.div_add_mod (x + y + c) (2 ^ 32)
            have : 2 ^ (32 * (xs.length + 1)) = 2 ^ 32 * 2 ^ (32 * xs.length) := by
              rw [← pow_add]; ring_nf
            rw [this]
            nlinarith [hv, hdm]
          · intro w hw2
            simp only [addC, List.mem_cons] at hw2
            rcases hw2 with h1 | h2
            · subst h1; exact Nat.mod_lt _ (by norm_num)
            · exact hw w h2

theorem subB_spec {a b : List Nat} (hlen : a.length = b.length)
    (ha : wordsLt a) (hb : wordsLt b) (br : Nat) (hbr : br ≤ 1) :
    wval (subB a b br).1 + wval b + br
      = wval a + 2 ^ (32 * a.length) * (subB a b br).2 ∧
    (subB a b br).2 ≤ 1 ∧
    (subB a b br).1.length = a.length ∧ wordsLt (subB a b br).1 := by
  induction a generalizing b br with
  | nil =>
      cases b with
      | nil => simpa [subB, wval, wordsLt] using hbr
      | cons x xs => simp at hlen
  | cons x xs ih =>
      cases b with
      | nil => simp at hlen
      | cons y ys =>
          simp only [List.length_cons, Nat.succ_inj] at hlen
          have hx : x < 2 ^ 32 := ha x (List.mem_cons_self _ _)
          have hy : y < 2 ^ 32 := hb y (List.mem_cons_self _ _)
          have has : wordsLt xs := fun w hw => ha w (List.mem_cons_of_mem _ hw)
          have hbs : wordsLt ys := fun w hw => hb w (List.mem_cons_of_mem _ hw)
          by_cases hc : y + br ≤ x
          · obtain ⟨hv, hb2, hl, hw⟩ := ih hlen has hbs 0 (by norm_num)
            have hrw : subB (x :: xs) (y :: ys) br
                = ((x - (y + br)) :: (subB xs ys 0).1, (subB xs ys 0).2) := by
              simp [subB, hc]
            rw [hrw]
            refine ⟨?_, hb2, by simpa using hl, ?_⟩
            · simp only [wval, List.length_cons]
              have h3 : 2 ^ (32 * (xs.length + 1)) = 2 ^ 32 * 2 ^ (32 * xs.length) := by
                rw [← pow_add]; ring_nf
              rw [h3]
              rcases Nat.le_one_iff_eq_zero_or_eq_one.mp hb2 with h0 | h0 <;>
                rw [h0] at hv ⊢ <;> norm_num at hv ⊢ <;> omega
            · intro w hw2
              simp only [List.mem_cons] at hw2
              rcases hw2 with h1 | h2
              · subst h1; omega
              · exact hw w h2
          · obtain ⟨hv, hb2, hl, hw⟩ := ih hlen has hbs 1 (by norm_num)
            have hrw : subB (x :: xs) (y :: ys) br
                = ((x + 2 ^ 32 - (y + br)) :: (subB xs ys 1).1, (subB xs ys 1).2) := by
              simp [subB, hc]
            rw [hrw]
            refine ⟨?_, hb2, by simpa using hl, ?_⟩
            · simp only [wval, List.length_cons]
              have h3 : 2 ^ (32 * (xs.length + 1)) = 2 ^ 32 * 2 ^ (32 * xs.length) := by
                rw [← pow_add]; ring_nf
              rw [h3]
              rcases Nat.le_one_iff_eq_zero_or_eq_one.mp hb2 with h0 | h0 <;>
                rw [h0] at hv ⊢ <;> norm_num at hv ⊢ <;> omega
            · intro w hw2
              simp only [List.mem_cons] at hw2
              rcases hw2 with h1 | h2
              · subst h1; omega
              · exact hw w h2

/-- Big-endian value of a word list (used to reason about `gte`). -/
def bval : List Nat → Nat
  | [] => 0
  | w :: ws => w * 2 ^ (32 * ws.length) + bval ws

theorem bval_append (xs ys : List Nat) :
    bval (xs ++ ys) = bval xs * 2 ^ (32 * ys.length) + bval ys := by
  induction xs with
  | nil => simp [bval]
  | cons x xs ih =>
      simp only [List.cons_append, bval, List.length_append, ih, List.append_eq]
      have h3 : 32 * (xs.length + ys.length) = 32 * xs.length + 32 * ys.length := by ring
      rw [h3, pow_add]
      ring

theorem wval_eq_bval_reverse (a : List Nat) : wval a = bval a.reverse := by
  induction a with
  | nil => rfl
  | cons w ws ih =>
      simp only [wval, List.reverse_cons, bval_append, ih, bval, List.length_nil]
      simp [bval]
      ring

theorem bval_lt_of_wordsLt {a : List Nat} (h : ∀ w ∈ a, w < 2 ^ 32) :
    bval a < 2 ^ (32 * a.length) := by
  induction a with
  | nil => simp [bval]
  | cons w ws ih =>
      have hw : w < 2 ^ 32 := h w (List.mem_cons_self _ _)
      have hws := ih fun x hx => h x (List.mem_cons_of_mem _ hx)
      simp only [bval, List.length_cons]
      have h3 : 2 ^ (32 * (ws.length + 1)) = 2 ^ 32 * 2 ^ (32 * ws.length) := by
        rw [← pow_add]; ring_nf
      rw [h3]
      nlinarith

theorem gteRev_spec {a b : List Nat} (hlen : a.length = b.length)
    (ha : ∀ w ∈ a, w < 2 ^ 32) (hb : ∀ w ∈ b, w < 2 ^ 32) :
    gteRev a b = decide (bval b ≤ bval a) := by
  induction a generalizing b with
  | nil =>
      cases b with
      | nil => simp [gteRev, bval]
      | cons x xs => simp at hlen
  | cons x xs ih =>
      cases b with
      | nil => simp at hlen
      | cons y ys =>
          simp only [List.length_cons, Nat.succ_inj] at hlen
          have hx : x < 2 ^ 32 := ha x (List.mem_cons_self _ _)
          have hy : y < 2 ^ 32 := hb y (List.mem_cons_self _ _)
          have hxs := fun w hw => ha w (List.mem_cons_of_mem _ hw)
          have hys := fun w hw => hb w (List.mem_cons_of_mem _ hw)
          have hbx := bval_lt_of_wordsLt hxs
          have hby := bval_lt_of_wordsLt hys
          rw [hlen] at hbx
          simp only [gteRev, bval, hlen]
          by_cases h1 : y < x
          · have hle : y * 2 ^ (32 * ys.length) + bval ys
                ≤ x * 2 ^ (32 * ys.length) + bval xs := by
              nlinarith
            simp [h1, hle]
          · by_cases h2 : x < y
            · have hnle : ¬ (y * 2 ^ (32 * ys.length) + bval ys
                  ≤ x * 2 ^ (32 * ys.length) + bval xs) := by
                push_neg
                nlinarith
              simp [Nat.lt_asymm h2, h2, hnle]
            · have hxy : x = y := by omega
              subst hxy
              simp [lt_irrefl, ih hlen hxs hys]

theorem gte_spec {a b : List Nat} (hlen : a.length = b.length)
    (ha : wordsLt a) (hb : wordsLt b) :
    gte a b = decide (wval b ≤ wval a) := by
  unfold gte
  rw [gteRev_spec (by simp [hlen]) (by intro w hw; exact ha w (List.mem_reverse.mp hw))
    (by intro w hw; exact hb w (List.mem_reverse.mp hw))]
  rw [← wval_eq_bval_reverse, ← wval_eq_bval_reverse]

/-- Well-formed `uint256`: eight words, each below `2^32`. -/
def U256 (a : List Nat) : Prop := a.length = 8 ∧ wordsLt a

instance (a : List Nat) : Decidable (U256 a) := by
  unfold U256; infer_instance

theorem U256_P_CONST : U256 P_CONST := by decide

theorem wval_lt_u256 {a : List Nat} (h : U256 a) : wval a < 2 ^ 256 := by
  have := wval_lt_of_wordsLt h.2
  rw [h.1] at this
  exact this

theorem pow3228 : (2 : Nat) ^ (32 * 8) = 2 ^ 256 := by norm_num

theorem mod_add_spec {a b : List Nat} (ha : U256 a) (hb : U256 b)
    (hap : wval a < pval) (hbp : wval b < pval) :
    wval (mod_add a b) = (wval a + wval b) % pval ∧ U256 (mod_add a b) ∧
      wval (mod_add a b) < pval := by
  obtain ⟨hva, hla, hwa⟩ := addC_spec (a := a) (b := b) (by rw [ha.1, hb.1]) 0
  rw [ha.1, pow3228] at hva
  have h1 := wval_lt_u256 ha
  have h2 := wval_lt_u256 hb
  have hcarry : (addC a b 0).2 ≤ 1 := by
    by_contra hc
    push_neg at hc
    omega
  have hlen8 : (addC a b 0).1.length = 8 := by rw [hla, ha.1]
  have hppos := pval_pos
  have hplt := pval_lt
  have h2p := two_pval
  simp only [mod_add, add_c]
  rw [gte_spec (by rw [hlen8]; rfl) hwa U256_P_CONST.2, wval_P_CONST]
  have hs256 := wval_lt_u256 ⟨hlen8, hwa⟩
  obtain ⟨hvs, hbs, hls, hws⟩ := subB_spec
    (a := (addC a b 0).1) (b := P_CONST) (by rw [hlen8]; rfl) hwa U256_P_CONST.2 0
    (by norm_num)
  rw [wval_P_CONST, hlen8, pow3228] at hvs
  rcases Nat.le_one_iff_eq_zero_or_eq_one.mp hcarry with h0 | hc1
  · rw [h0] at hva
    simp only [h0, mul_zero, add_zero] at hva
    by_cases hge : pval ≤ wval (addC a b 0).1
    · rw [if_pos (Or.inr (by simp [hge]))]
      have hbo : (subB (addC a b 0).1 P_CONST 0).2 = 0 := by
        have hr2 := wval_lt_u256 ⟨hls.trans hlen8, hws⟩
        rcases Nat.le_one_iff_eq_zero_or_eq_one.mp hbs with h | h
        · exact h
        · rw [h] at hvs
          omega
      rw [hbo] at hvs
      have hmod : (wval a + wval b) % pval = wval a + wval b - pval := by
        rw [Nat.mod_eq_sub_mod (by omega), Nat.mod_eq_of_lt (by omega)]
      exact ⟨by simp only [sub_b]; omega, ⟨hls.trans hlen8, hws⟩, by simp only [sub_b]; omega⟩
    · push_neg at hge
      rw [if_neg (by simp [h0]; omega)]
      have hmod : (wval a + wval b) % pval = wval a + wval b := by
        rw [Nat.mod_eq_of_lt (by omega)]
      exact ⟨by omega, ⟨hlen8, hwa⟩, by omega⟩
  · rw [hc1] at hva
    simp only [hc1, mul_one] at hva
    rw [if_pos (Or.inl (by omega))]
    have hslt : wval (addC a b 0).1 < pval := by omega
    have hbo : (subB (addC a b 0).1 P_CONST 0).2 = 1 := by
      rcases Nat.le_one_iff_eq_zero_or_eq_one.mp hbs with h | h
      · rw [h] at hvs
        omega
      · exact h
    rw [hbo] at hvs
    have hmod : (wval a + wval b) % pval = wval a + wval b - pval := by
      rw [Nat.mod_eq_sub_mod (by omega), Nat.mod_eq_of_lt (by omega)]
    exact ⟨by simp only [sub_b]; omega, ⟨hls.trans hlen8, hws⟩, by simp only [sub_b]; omega⟩

theorem mod_sub_spec {a b : List Nat} (ha : U256 a) (hb : U256 b)
    (hap : wval a < pval) (hbp : wval b < pval) :
    wval (mod_sub a b) = (wval a + pval - wval b) % pval ∧ U256 (mod_sub a b) ∧
      wval (mod_sub a b) < pval := by
  obtain ⟨hvs, hbs, hls, hws⟩ := subB_spec (a := a) (b := b)
    (by rw [ha.1, hb.1]) ha.2 hb.2 0 (by norm_num)
  rw [ha.1, pow3228] at hvs
  have halt := wval_lt_u256 ha
  have hblt := wval_lt_u256 hb
  have hppos := pval_pos
  have hplt := pval_lt
  simp only [mod_sub, sub_b]
  rcases Nat.le_one_iff_eq_zero_or_eq_one.mp hbs with h0 | h1
  · rw [h0] at hvs
    simp only [h0, mul_zero, add_zero] at hvs
    rw [if_neg (by simp [h0])]
    have hble : wval b ≤ wval a := by omega
    have hmod : (wval a + pval - wval b) % pval = wval a - wval b := by
      have heq : wval a + pval - wval b = (wval a - wval b) + pval := by omega
      rw [heq, Nat.add_mod_right, Nat.mod_eq_of_lt (by omega)]
    exact ⟨by omega, ⟨hls.trans ha.1, hws⟩, by omega⟩
  · rw [h1] at hvs
    simp only [h1, mul_one] at hvs
    rw [if_pos (by omega)]
    obtain ⟨hva, hla, hwa⟩ := addC_spec
      (a := (subB a b 0).1) (b := P_CONST) (by rw [hls, ha.1]; rfl) 0
    rw [wval_P_CONST, hls, ha.1, pow3228] at hva
    have hres := wval_lt_u256 ⟨hls.trans ha.1, hws⟩
    have hsub : wval (subB a b 0).1 = wval a + 2 ^ 256 - wval b := by omega
    have hblta : wval a < wval b := by
      by_contra hcon
      push_neg at hcon
      omega
    have hc1 : (addC (subB a b 0).1 P_CONST 0).2 = 1 := by
      have hr2 := wval_lt_u256 ⟨hla.trans (hls.trans ha.1), hwa⟩
      by_contra hcon
      have hcle : (addC (subB a b 0).1 P_CONST 0).2 ≤ 1 := by omega
      have hc0 : (addC (subB a b 0).1 P_CONST 0).2 = 0 := by omega
      rw [hc0] at hva
      simp only [mul_zero, add_zero] at hva
      omega
    rw [hc1] at hva
    have hmod : (wval a + pval - wval b) % pval = wval a + pval - wval b := by
      rw [Nat.mod_eq_of_lt (by omega)]
    exact ⟨by simp only [add_c]; omega, ⟨hla.trans (hls.trans ha.1), hwa⟩,
      by simp only [add_c]; omega⟩

/-! ## `mod_mul`: schoolbook multiply and secp256k1 fold reduction

The C kernel works on a sixteen-`ulong` accumulator whose entries stay
below `2^32`; under the bounds proved below every intermediate C value
fits in a `ulong`, so plain `Nat` arithmetic coincides with the C
semantics. -/

/-- One row of the schoolbook multiply: adds `ai * b` into the
accumulator view `u` (positions `i + j`), final carry is written
(`u[i+8] = carry`) over the zero slot at position `b.length`. -/
def mulRowAux (ai : Nat) : List Nat → List Nat → Nat → List Nat
  | b :: bs, u :: us, carry =>
      (ai * b + u + carry) % 2 ^ 32 ::
        mulRowAux ai bs us ((ai * b + u + carry) / 2 ^ 32)
  | [], _ :: us, carry => carry :: us
  | _, [], _ => []

/-- All eight rows (`for i ...` loop); each row commits one accumulator
word and recurses on the shifted view. -/
def mulAll : List Nat → List Nat → List Nat → List Nat
  | [], _, u => u
  | ai :: as, b, u =>
      match mulRowAux ai b u 0 with
      | [] => []
      | u0 :: urest => u0 :: mulAll as b urest

/-- The carry-propagation `while (carry_shift > 0 && idx < 16)` tail of
the fold step; a carry past the end of the list is dropped, exactly as
the C loop stops at index 16. -/
def propagateCarry : List Nat → Nat → List Nat
  | [], _ => []
  | x :: xs, c =>
      if c = 0 then x :: xs
      else (x + c) % 2 ^ 32 :: propagateCarry xs ((x + c) / 2 ^ 32)

/-- The `high[k] * 977` accumulation loop of the fold step; produces the
nine words `u[0..8]` (`u[8] = carry_mul` over the just-zeroed slot). -/
def mul977 : List Nat → List Nat → Nat → List Nat
  | h :: hs, l :: ls, c =>
      (h * 977 + l + c) % 2 ^ 32 :: mul977 hs ls ((h * 977 + l + c) / 2 ^ 32)
  | _, _, c => [c]

/-- The `high` shift-add loop of the fold step (`u[k+1] += high[k]`),
followed by carry propagation. -/
def addShift : List Nat → List Nat → Nat → List Nat
  | h :: hs, x :: xs, c =>
      (h + x + c) % 2 ^ 32 :: addShift hs xs ((h + x + c) / 2 ^ 32)
  | [], xs, c => propagateCarry xs c
  | _, [], _ => []

def highZero (u : List Nat) : Bool := (u.drop 8).all (· == 0)

/-- One iteration of the reduction fold: extract the high eight words,
zero them, add `high * 977` into the low words and `high` shifted one
word up (together `high * (2^32 + 977)`). -/
def foldStep (u : List Nat) : List Nat :=
  match mul977 (u.drop 8) (u.take 8) 0 with
  | [] => []
  | u0 :: rest => u0 :: addShift (u.drop 8) (rest ++ List.replicate 7 0) 0

/-- The `for (iter = 0; iter < 6; iter++)` fold loop with its
`high_zero` early exit. -/
def foldIter : Nat → List Nat → List Nat
  | 0, u => u
  | n + 1, u => if highZero u then u else foldIter n (foldStep u)

/-- The trailing `while (gte(&final_res, &P)) sub_b(...)` loop.  The C
loop is unbounded; two unrollings are proved below to reach a fixpoint
for every input the kernel produces (`wval < 2^257`). -/
def whileSubP : Nat → List Nat → List Nat
  | 0, r => r
  | f + 1, r => if gte r P_CONST then whileSubP f (sub_b r P_CONST).1 else r

/-- `mod_mul` of the kernel: schoolbook 8×8 multiply, bounded fold by
`c = 2^32 + 977`, final subtraction loop. -/
def mod_mul (a b : List Nat) : List Nat :=
  whileSubP 2 ((foldIter 6 (mulAll a b (List.replicate 16 0))).take 8)

/-! ### Multiply-phase lemmas -/

theorem mulRowAux_spec (ai : Nat) (b u : List Nat) (c : Nat)
    (hlen : b.length < u.length) (hslot : u.getD b.length 0 = 0)
    (hu : wordsLt u) (hc : c < 2 ^ 32) (hai : ai < 2 ^ 32) (hb : wordsLt b) :
    wval (mulRowAux ai b u c) = ai * wval b + wval u + c ∧
    (mulRowAux ai b u c).length = u.length ∧ wordsLt (mulRowAux ai b u c) ∧
    (∀ k, b.length < k → (mulRowAux ai b u c).getD k 0 = u.getD k 0) := by
  induction b generalizing u c with
  | nil =>
      cases u with
      | nil => simp at hlen
      | cons u0 us =>
          have hu0 : u0 = 0 := by simpa [List.getD] using hslot
          refine ⟨?_, by simp [mulRowAux], ?_, ?_⟩
          · simp [mulRowAux, wval, hu0]
            ring
          · intro w hw
            simp only [mulRowAux, List.mem_cons] at hw
            rcases hw with h | h
            · subst h; exact hc
            · exact hu w (List.mem_cons_of_mem _ h)
          · intro k hk
            match k, hk with
            | k + 1, _ => simp [mulRowAux]
  | cons b0 bs ih =>
      cases u with
      | nil => simp at hlen
      | cons u0 us =>
          simp only [List.length_cons, Nat.succ_lt_succ_iff] at hlen
          have hu0 : u0 < 2 ^ 32 := hu u0 (List.mem_cons_self _ _)
          have hus : wordsLt us := fun w hw => hu w (List.mem_cons_of_mem _ hw)
          have hb0 : b0 < 2 ^ 32 := hb b0 (List.mem_cons_self _ _)
          have hbs : wordsLt bs := fun w hw => hb w (List.mem_cons_of_mem _ hw)
          have hslot2 : us.getD bs.length 0 = 0 := by
            simpa [List.getD, List.getD_cons_succ] using hslot
          have hcdiv : (ai * b0 + u0 + c) / 2 ^ 32 < 2 ^ 32 := by
            have h1 : ai * b0 ≤ (2 ^ 32 - 1) * (2 ^ 32 - 1) := by
              apply Nat.mul_le_mul <;> omega
            apply Nat.div_lt_of_lt_mul
            nlinarith
          obtain ⟨hv, hl, hw, hrest⟩ := ih us ((ai * b0 + u0 + c) / 2 ^ 32)
            hlen hslot2 hus hcdiv hbs
          refine ⟨?_, by simpa [mulRowAux] using hl, ?_, ?_⟩
          · simp only [mulRowAux, wval, hv]
            have hdm := Nat.div_add_mod (ai * b0 + u0 + c) (2 ^ 32)
            nlinarith [hdm]
          · intro w hw2
            simp only [mulRowAux, List.mem_cons] at hw2
            rcases hw2 with h | h
            · subst h; exact Nat.mod_lt _ (by norm_num)
            · exact hw w h
          · intro k hk
            match k, hk with
            | k + 1, hk =>
                simp only [mulRowAux, List.getD_cons_succ]
                exact hrest k (by simpa using hk)

theorem mulAll_spec (as b u : List Nat)
    (hlen : as.length + b.length ≤ u.length)
    (hzero : ∀ k, b.length ≤ k → u.getD k 0 = 0)
    (hu : wordsLt u) (has : wordsLt as) (hb : wordsLt b) :
    wval (mulAll as b u) = wval u + wval as * wval b ∧
    (mulAll as b u).length = u.length ∧ wordsLt (mulAll as b u) := by
  induction as generalizing u with
  | nil => simp [mulAll, wval, hu]
  | cons a0 astl ih =>
      have ha0 : a0 < 2 ^ 32 := has a0 (List.mem_cons_self _ _)
      have hastl : wordsLt astl := fun w hw => has w (List.mem_cons_of_mem _ hw)
      simp only [List.length_cons] at hlen
      obtain ⟨hv, hl, hw, hrest⟩ := mulRowAux_spec a0 b u 0
        (by omega) (hzero _ le_rfl) hu (by norm_num) ha0 hb
      have hne : mulRowAux a0 b u 0 ≠ [] := by
        intro hcon
        rw [hcon] at hl
        simp only [List.length_nil] at hl
        omega
      obtain ⟨u0, urest, hurw⟩ := List.exists_cons_of_ne_nil hne
      rw [hurw] at hv hl hw hrest
      have hul : urest.length = u.length - 1 := by
        simp only [List.length_cons] at hl
        omega
      have hzero2 : ∀ k, b.length ≤ k → urest.getD k 0 = 0 := by
        intro k hk
        have h1 := hrest (k + 1) (by omega)
        simp only [List.getD_cons_succ] at h1
        rw [h1]
        exact hzero (k + 1) (by omega)
      have hwrest : wordsLt urest := fun w hw2 => hw w (List.mem_cons_of_mem _ hw2)
      obtain ⟨hv2, hl2, hw2⟩ := ih urest (by omega) hzero2 hwrest hastl
      have hrw : mulAll (a0 :: astl) b u = u0 :: mulAll astl b urest := by
        simp only [mulAll, hurw]
      rw [hrw]
      refine ⟨?_, ?_, ?_⟩
      · simp only [wval, hv2]
        have : wval (u0 :: urest) = u0 + 2 ^ 32 * wval urest := rfl
        simp only [wval] at hv
        nlinarith [hv]
      · simp only [List.length_cons, hl2]
        omega
      · intro w hw3
        simp only [List.mem_cons] at hw3
        rcases hw3 with h | h
        · subst h; exact hw _ (List.mem_cons_self _ _)
        · exact hw2 w h

/-! ### Fold-phase lemmas -/

theorem wval_append (xs ys : List Nat) :
    wval (xs ++ ys) = wval xs + 2 ^ (32 * xs.length) * wval ys := by
  induction xs with
  | nil => simp [wval]
  | cons x xs ih =>
      rw [List.cons_append]
      show wval (x :: (xs ++ ys)) = _
      simp only [wval, List.length_cons, ih]
      have h3 : 2 ^ (32 * (xs.length + 1)) = 2 ^ 32 * 2 ^ (32 * xs.length) := by
        rw [← pow_add]; ring_nf
      rw [h3]
      ring

theorem wval_replicate_zero (n : Nat) : wval (List.replicate n 0) = 0 := by
  induction n with
  | zero => rfl
  | succ n ih => simp [List.replicate, wval, ih]

theorem wval_eq_zero_iff {l : List Nat} : wval l = 0 ↔ ∀ w ∈ l, w = 0 := by
  induction l with
  | nil => simp [wval]
  | cons x xs ih =>
      simp only [wval, List.mem_cons]
      constructor
      · intro h
        have hx : x = 0 := by omega
        have hxs : wval xs = 0 := by omega
        intro w hw
        rcases hw with h1 | h2
        · omega
        · exact ih.mp hxs w h2
      · intro h
        have hx := h x (Or.inl rfl)
        have hxs : wval xs = 0 := ih.mpr fun w hw => h w (Or.inr hw)
        omega

theorem highZero_iff {u : List Nat} : highZero u = true ↔ wval (u.drop 8) = 0 := by
  unfold highZero
  rw [List.all_eq_true, wval_eq_zero_iff]
  simp only [beq_iff_eq]

theorem wval_take_drop (u : List Nat) (h : u.length = 16) :
    wval u = wval (u.take 8) + 2 ^ 256 * wval (u.drop 8) := by
  conv_lhs => rw [← List.take_append_drop 8 u]
  rw [wval_append]
  have hlen : (u.take 8).length = 8 := by
    rw [List.length_take]
    omega
  rw [hlen]

theorem propagateCarry_spec (xs : List Nat) (c : Nat) (hx : wordsLt xs)
    (hfit : wval xs + c < 2 ^ (32 * xs.length)) :
    wval (propagateCarry xs c) = wval xs + c ∧
    (propagateCarry xs c).length = xs.length ∧ wordsLt (propagateCarry xs c) := by
  induction xs generalizing c with
  | nil =>
      simp only [wval, List.length_nil, Nat.mul_zero, pow_zero] at hfit
      have : c = 0 := by omega
      simp [propagateCarry, wval, this, wordsLt]
  | cons x xs ih =>
      by_cases hc : c = 0
      · subst hc
        simp [propagateCarry, hx]
      · have hxw : x < 2 ^ 32 := hx x (List.mem_cons_self _ _)
        have hxs : wordsLt xs := fun w hw => hx w (List.mem_cons_of_mem _ hw)
        simp only [wval, List.length_cons] at hfit
        have h3 : 2 ^ (32 * (xs.length + 1)) = 2 ^ 32 * 2 ^ (32 * xs.length) := by
          rw [← pow_add]; ring_nf
        rw [h3] at hfit
        have hfit2 : wval xs + (x + c) / 2 ^ 32 < 2 ^ (32 * xs.length) := by
          have hdm := Nat.div_add_mod (x + c) (2 ^ 32)
          by_contra hcon
          push_neg at hcon
          have : 2 ^ (32 * xs.length) * 2 ^ 32 ≤ (wval xs + (x + c) / 2 ^ 32) * 2 ^ 32 := by
            exact Nat.mul_le_mul_right _ hcon
          omega
        obtain ⟨hv, hl, hw⟩ := ih ((x + c) / 2 ^ 32) hxs hfit2
        simp only [propagateCarry, hc, if_false, ite_false]
        refine ⟨?_, by simpa using hl, ?_⟩
        · simp only [wval, hv]
          have hdm := Nat.div_add_mod (x + c) (2 ^ 32)
          ring_nf
          omega
        · intro w hw2
          simp only [List.mem_cons] at hw2
          rcases hw2 with h | h
          · subst h; exact Nat.mod_lt _ (by norm_num)
          · exact hw w h

theorem mul977_spec (h l : List Nat) (c : Nat) (hlen : h.length = l.length)
    (hh : wordsLt h) (hl : wordsLt l) (hc : c < 2 ^ 32) :
    wval (mul977 h l c) = 977 * wval h + wval l + c ∧
    (mul977 h l c).length = l.length + 1 ∧ wordsLt (mul977 h l c) := by
  induction h generalizing l c with
  | nil =>
      cases l with
      | nil =>
          simp [mul977, wval, wordsLt]
          omega
      | cons x xs => simp at hlen
  | cons h0 hs ih =>
      cases l with
      | nil => simp at hlen
      | cons l0 ls =>
          simp only [List.length_cons, Nat.succ_inj] at hlen
          have hh0 : h0 < 2 ^ 32 := hh h0 (List.mem_cons_self _ _)
          have hl0 : l0 < 2 ^ 32 := hl l0 (List.mem_cons_self _ _)
          have hhs : wordsLt hs := fun w hw => hh w (List.mem_cons_of_mem _ hw)
          have hls : wordsLt ls := fun w hw => hl w (List.mem_cons_of_mem _ hw)
          have hcd : (h0 * 977 + l0 + c) / 2 ^ 32 < 2 ^ 32 := by
            apply Nat.div_lt_of_lt_mul
            nlinarith
          obtain ⟨hv, hlr, hw⟩ := ih ls ((h0 * 977 + l0 + c) / 2 ^ 32) hlen hhs hls hcd
          simp only [mul977]
          refine ⟨?_, by simpa using hlr, ?_⟩
          · simp only [wval, hv]
            have hdm := Nat.div_add_mod (h0 * 977 + l0 + c) (2 ^ 32)
            nlinarith [hdm]
          · intro w hw2
            simp only [List.mem_cons] at hw2
            rcases hw2 with h | h
            · subst h; exact Nat.mod_lt _ (by norm_num)
            · exact hw w h

theorem addShift_spec (h x : List Nat) (c : Nat) (hlen : h.length ≤ x.length)
    (hh : wordsLt h) (hx : wordsLt x) (hc : c < 2 ^ 32)
    (hfit : wval h + wval x + c < 2 ^ (32 * x.length)) :
    wval (addShift h x c) = wval h + wval x + c ∧
    (addShift h x c).length = x.length ∧ wordsLt (addShift h x c) := by
  induction h generalizing x c with
  | nil =>
      simp only [addShift, wval]
      have := propagateCarry_spec x c hx (by simpa [wval] using hfit)
      simp only [wval] at this
      exact ⟨by omega, this.2.1, this.2.2⟩
  | cons h0 hs ih =>
      cases x with
      | nil => simp at hlen
      | cons x0 xs =>
          simp only [List.length_cons, Nat.succ_le_succ_iff] at hlen
          have hh0 : h0 < 2 ^ 32 := hh h0 (List.mem_cons_self _ _)
          have hx0 : x0 < 2 ^ 32 := hx x0 (List.mem_cons_self _ _)
          have hhs : wordsLt hs := fun w hw => hh w (List.mem_cons_of_mem _ hw)
          have hxs : wordsLt xs := fun w hw => hx w (List.mem_cons_of_mem _ hw)
          have hcd : (h0 + x0 + c) / 2 ^ 32 < 2 ^ 32 := by
            apply Nat.div_lt_of_lt_mul
            nlinarith
          simp only [wval, List.length_cons] at hfit
          have h3 : 2 ^ (32 * (xs.length + 1)) = 2 ^ 32 * 2 ^ (32 * xs.length) := by
            rw [← pow_add]; ring_nf
          rw [h3] at hfit
          have hdm := Nat.div_add_mod (h0 + x0 + c) (2 ^ 32)
          have hfit2 : wval hs + wval xs + (h0 + x0 + c) / 2 ^ 32
              < 2 ^ (32 * xs.length) := by
            by_contra hcon
            push_neg at hcon
            have h4 : 2 ^ (32 * xs.length) * 2 ^ 32
                ≤ (wval hs + wval xs + (h0 + x0 + c) / 2 ^ 32) * 2 ^ 32 :=
              Nat.mul_le_mul_right _ hcon
            omega
          obtain ⟨hv, hlr, hw⟩ := ih xs ((h0 + x0 + c) / 2 ^ 32) hlen hhs hxs hcd hfit2
          simp only [addShift]
          refine ⟨?_, by simpa using hlr, ?_⟩
          · simp only [wval, hv]
            nlinarith [hdm]
          · intro w hw2
            simp only [List.mem_cons] at hw2
            rcases hw2 with h | h
            · subst h; exact Nat.mod_lt _ (by norm_num)
            · exact hw w h

theorem foldStep_spec {u : List Nat} (hl : u.length = 16) (hw : wordsLt u) :
    wval (foldStep u) = wval (u.take 8) + (2 ^ 32 + 977) * wval (u.drop 8) ∧
    (foldStep u).length = 16 ∧ wordsLt (foldStep u) := by
  have hlt : (u.take 8).length = 8 := by rw [List.length_take]; omega
  have hld : (u.drop 8).length = 8 := by rw [List.length_drop]; omega
  have hwt : wordsLt (u.take 8) := fun w hwm => hw w (List.take_subset _ _ hwm)
  have hwd : wordsLt (u.drop 8) := fun w hw2 => hw w (List.drop_subset _ _ hw2)
  obtain ⟨hv9, hl9, hw9⟩ := mul977_spec (u.drop 8) (u.take 8) 0
    (hld.trans hlt.symm) hwd hwt (by norm_num)
  have hne : mul977 (u.drop 8) (u.take 8) 0 ≠ [] := by
    intro h
    rw [h] at hl9
    simp only [List.length_nil] at hl9
    omega
  obtain ⟨u0, rest, hurw⟩ := List.exists_cons_of_ne_nil hne
  rw [hurw] at hv9 hl9 hw9
  simp only [List.length_cons, hlt] at hl9
  have hlrest : rest.length = 8 := by omega
  have hwrest : wordsLt rest := fun w hw2 => hw9 w (List.mem_cons_of_mem _ hw2)
  have hu0 : u0 < 2 ^ 32 := hw9 u0 (List.mem_cons_self _ _)
  have hvrest := wval_lt_of_wordsLt hwrest
  rw [hlrest] at hvrest
  have hvdrop := wval_lt_of_wordsLt hwd
  rw [hld] at hvdrop
  have hlr2 : (rest ++ List.replicate 7 0).length = 15 := by
    simp [hlrest]
  have hwr2 : wordsLt (rest ++ List.replicate 7 0) := by
    intro w hw2
    rcases List.mem_append.mp hw2 with h | h
    · exact hwrest w h
    · have := List.eq_of_mem_replicate h
      subst this
      norm_num
  have hvr2 : wval (rest ++ List.replicate 7 0) = wval rest := by
    rw [wval_append, wval_replicate_zero]
    ring
  obtain ⟨hva, hla, hwa⟩ := addShift_spec (u.drop 8) (rest ++ List.replicate 7 0) 0
    (by omega) hwd hwr2 (by norm_num)
    (by rw [hvr2, hlr2]; norm_num; omega)
  have hrw : foldStep u = u0 :: addShift (u.drop 8) (rest ++ List.replicate 7 0) 0 := by
    simp only [foldStep, hurw]
  rw [hrw]
  refine ⟨?_, ?_, ?_⟩
  · simp only [wval, hva, hvr2]
    simp only [wval] at hv9
    nlinarith [hv9]
  · simp only [List.length_cons, hla, hlr2]
  · intro w hw2
    simp only [List.mem_cons] at hw2
    rcases hw2 with h | h
    · subst h; exact hu0
    · exact hwa w h

theorem pval_c : pval + (2 ^ 32 + 977) = 2 ^ 256 := by norm_num [pval]

theorem foldStep_mod {u : List Nat} (hl : u.length = 16) (hw : wordsLt u) :
    wval (foldStep u) + pval * wval (u.drop 8) = wval u := by
  obtain ⟨hv, _, _⟩ := foldStep_spec hl hw
  have hsplit := wval_take_drop u hl
  have hc := pval_c
  nlinarith [hv, hsplit]

theorem foldIter_exit {n : Nat} {u : List Nat} (hz : highZero u = true) :
    foldIter (n + 1) u = u := by
  simp [foldIter, hz]

theorem foldIter_step {n : Nat} {u : List Nat} (hz : highZero u = false) :
    foldIter (n + 1) u = foldIter n (foldStep u) := by
  simp [foldIter, hz]

theorem wval_take_of_highZero {v : List Nat} (hl : v.length = 16)
    (hz : highZero v = true) : wval (v.take 8) = wval v := by
  have := wval_take_drop v hl
  rw [highZero_iff.mp hz] at this
  omega

/-- The reduction fold reaches a zero high half within its six bounded
iterations for every 512-bit input, and preserves the value mod `p`. -/
theorem foldIter6_spec {u : List Nat} (hl : u.length = 16) (hw : wordsLt u)
    (hv : wval u < 2 ^ 512) :
    highZero (foldIter 6 u) = true ∧
    (foldIter 6 u).length = 16 ∧ wordsLt (foldIter 6 u) ∧
    wval (foldIter 6 u) % pval = wval u % pval := by
  have hc := pval_c
  by_cases h0 : highZero u
  · rw [show (6 : Nat) = 5 + 1 from rfl, foldIter_exit h0]
    exact ⟨h0, hl, hw, rfl⟩
  · rw [show (6 : Nat) = 5 + 1 from rfl,
      foldIter_step (Bool.not_eq_true _ ▸ h0 : highZero u = false)]
    have hsp0 := wval_take_drop u hl
    have hL0 : wval (u.take 8) < 2 ^ 256 := by
      have hwt : wordsLt (u.take 8) := fun w hwm => hw w (List.take_subset _ _ hwm)
      have := wval_lt_of_wordsLt hwt
      rwa [show (u.take 8).length = 8 by rw [List.length_take]; omega] at this
    obtain ⟨hv1, hl1, hw1⟩ := foldStep_spec hl hw
    have hm1 := foldStep_mod hl hw
    have hH0 : wval (u.drop 8) < 2 ^ 256 := by omega
    have hb1 : wval (foldStep u) < 2 ^ 256 + (2 ^ 32 + 977) * 2 ^ 256 := by
      rw [hv1]
      have := Nat.mul_le_mul_left (2 ^ 32 + 977) (Nat.le_of_lt_succ (by omega : wval (u.drop 8) < 2 ^ 256 - 1 + 1))
      omega
    have hmod1 : wval (foldStep u) % pval = wval u % pval := by
      conv_rhs => rw [← hm1]
      rw [Nat.add_mul_mod_self_left]
    generalize hgen1 : foldStep u = u1 at hv1 hl1 hw1 hb1 hmod1
    by_cases h1 : highZero u1
    · rw [show (5 : Nat) = 4 + 1 from rfl, foldIter_exit h1]
      exact ⟨h1, hl1, hw1, hmod1⟩
    · rw [show (5 : Nat) = 4 + 1 from rfl,
        foldIter_step (Bool.not_eq_true _ ▸ h1 : highZero u1 = false)]
      have hsp1 := wval_take_drop u1 hl1
      have hL1 : wval (u1.take 8) < 2 ^ 256 := by
        have hwt : wordsLt (u1.take 8) := fun w hwm => hw1 w (List.take_subset _ _ hwm)
        have := wval_lt_of_wordsLt hwt
        rwa [show (u1.take 8).length = 8 by rw [List.length_take]; omega] at this
      obtain ⟨hv2, hl2, hw2⟩ := foldStep_spec hl1 hw1
      have hm2 := foldStep_mod hl1 hw1
      have hH1 : wval (u1.drop 8) ≤ 2 ^ 32 + 977 := by omega
      have hb2 : wval (foldStep u1) < 2 ^ 256 + 2 ^ 66 := by
        rw [hv2]
        have := Nat.mul_le_mul_left (2 ^ 32 + 977) hH1
        omega
      have hmod2 : wval (foldStep u1) % pval = wval u1 % pval := by
        conv_rhs => rw [← hm2]
        rw [Nat.add_mul_mod_self_left]
      generalize hgen2 : foldStep u1 = u2 at hv2 hl2 hw2 hb2 hmod2
      by_cases h2 : highZero u2
      · rw [show (4 : Nat) = 3 + 1 from rfl, foldIter_exit h2]
        exact ⟨h2, hl2, hw2, hmod2.trans hmod1⟩
      · rw [show (4 : Nat) = 3 + 1 from rfl,
          foldIter_step (Bool.not_eq_true _ ▸ h2 : highZero u2 = false)]
        have hsp2 := wval_take_drop u2 hl2
        have hL2 : wval (u2.take 8) < 2 ^ 256 := by
          have hwt : wordsLt (u2.take 8) := fun w hwm => hw2 w (List.take_subset _ _ hwm)
          have := wval_lt_of_wordsLt hwt
          rwa [show (u2.take 8).length = 8 by rw [List.length_take]; omega] at this
        obtain ⟨hv3, hl3, hw3⟩ := foldStep_spec hl2 hw2
        have hm3 := foldStep_mod hl2 hw2
        have hH2 : wval (u2.drop 8) ≤ 1 := by omega
        have hb3 : wval (foldStep u2) < 2 ^ 256 + (2 ^ 32 + 977) := by
          rw [hv3]
          have := Nat.mul_le_mul_left (2 ^ 32 + 977) hH2
          omega
        have hmod3 : wval (foldStep u2) % pval = wval u2 % pval := by
          conv_rhs => rw [← hm3]
          rw [Nat.add_mul_mod_self_left]
        generalize hgen3 : foldStep u2 = u3 at hv3 hl3 hw3 hb3 hmod3
        by_cases h3 : highZero u3
        · rw [show (3 : Nat) = 2 + 1 from rfl, foldIter_exit h3]
          exact ⟨h3, hl3, hw3, hmod3.trans (hmod2.trans hmod1)⟩
        · rw [show (3 : Nat) = 2 + 1 from rfl,
            foldIter_step (Bool.not_eq_true _ ▸ h3 : highZero u3 = false)]
          have hsp3 := wval_take_drop u3 hl3
          obtain ⟨hv4, hl4, hw4⟩ := foldStep_spec hl3 hw3
          have hm4 := foldStep_mod hl3 hw3
          have hH3 : wval (u3.drop 8) ≤ 1 := by omega
          have hH3p : 1 ≤ wval (u3.drop 8) := by
            rcases Nat.eq_zero_or_pos (wval (u3.drop 8)) with hz | hp
            · exact absurd (highZero_iff.mpr hz) h3
            · exact hp
          have hH3e : wval (u3.drop 8) = 1 := le_antisymm hH3 hH3p
          have hL3 : wval (u3.take 8) < 2 ^ 32 + 977 := by
            rw [hH3e] at hsp3
            omega
          have hb4 : wval (foldStep u3) < 2 ^ 256 := by
            rw [hv4, hH3e]
            omega
          have hmod4 : wval (foldStep u3) % pval = wval u3 % pval := by
            conv_rhs => rw [← hm4]
            rw [Nat.add_mul_mod_self_left]
          generalize hgen4 : foldStep u3 = u4 at hv4 hl4 hw4 hb4 hmod4
          have h4 : highZero u4 = true := by
            apply highZero_iff.mpr
            have hsp4 := wval_take_drop u4 hl4
            omega
          rw [show (2 : Nat) = 1 + 1 from rfl, foldIter_exit h4]
          exact ⟨h4, hl4, hw4, hmod4.trans (hmod3.trans (hmod2.trans hmod1))⟩

theorem whileSubP_succ (f : Nat) (r : List Nat) :
    whileSubP (f + 1) r
      = if gte r P_CONST = true then whileSubP f (sub_b r P_CONST).1 else r := rfl

theorem getD_replicate_zero : ∀ (n k : Nat), (List.replicate n 0).getD k 0 = 0
  | 0, _ => by simp [List.getD]
  | _ + 1, 0 => by simp [List.replicate, List.getD]
  | n + 1, k + 1 => by
      simp only [List.replicate, List.getD_cons_succ]
      exact getD_replicate_zero n k

theorem whileSubP_spec {r : List Nat} (hr : U256 r) :
    wval (whileSubP 2 r) = wval r % pval ∧ U256 (whileSubP 2 r) ∧
      wval (whileSubP 2 r) < pval := by
  have h256 := wval_lt_u256 hr
  have h2p := two_pval
  have hpp := pval_pos
  have hg := gte_spec (a := r) (b := P_CONST) (by rw [hr.1]; rfl) hr.2 U256_P_CONST.2
  rw [wval_P_CONST] at hg
  rcases Nat.lt_or_ge (wval r) pval with hlt | hge
  · have hrw : whileSubP 2 r = r := by
      rw [show (2 : Nat) = 1 + 1 from rfl, whileSubP_succ, hg]
      simp [Nat.not_le.mpr hlt]
    rw [hrw]
    exact ⟨(Nat.mod_eq_of_lt hlt).symm, hr, hlt⟩
  · obtain ⟨hvs, hbs, hls, hws⟩ := subB_spec (a := r) (b := P_CONST)
      (by rw [hr.1]; rfl) hr.2 U256_P_CONST.2 0 (by norm_num)
    rw [wval_P_CONST, hr.1, pow3228] at hvs
    have hbo : (subB r P_CONST 0).2 = 0 := by
      have hrlt := wval_lt_u256 ⟨hls.trans hr.1, hws⟩
      rcases Nat.le_one_iff_eq_zero_or_eq_one.mp hbs with h | h
      · exact h
      · rw [h] at hvs; omega
    rw [hbo] at hvs
    simp only [mul_zero, add_zero] at hvs
    have hsub : wval (sub_b r P_CONST).1 = wval r - pval := by
      simp only [sub_b]; omega
    have hlt2 : wval (sub_b r P_CONST).1 < pval := by omega
    have hg2 := gte_spec (a := (sub_b r P_CONST).1) (b := P_CONST)
      (by simp only [sub_b]; rw [hls, hr.1]; rfl) (by simp only [sub_b]; exact hws)
      U256_P_CONST.2
    rw [wval_P_CONST] at hg2
    have hrw : whileSubP 2 r = (sub_b r P_CONST).1 := by
      rw [show (2 : Nat) = 1 + 1 from rfl, whileSubP_succ, hg]
      rw [if_pos (by simp [hge])]
      rw [show (1 : Nat) = 0 + 1 from rfl, whileSubP_succ, hg2]
      simp [Nat.not_le.mpr hlt2]
    rw [hrw]
    have hmod : wval r % pval = wval r - pval := by
      rw [Nat.mod_eq_sub_mod hge, Nat.mod_eq_of_lt (by omega)]
    exact ⟨by omega, ⟨by simp only [sub_b]; rw [hls, hr.1], by simp only [sub_b]; exact hws⟩,
      by omega⟩

/-- Full functional correctness of the kernel `mod_mul` for arbitrary
256-bit inputs: the result is `a * b mod p`, canonical in `[0, p)`. -/
theorem mod_mul_spec {a b : List Nat} (ha : U256 a) (hb : U256 b) :
    wval (mod_mul a b) = wval a * wval b % pval ∧ U256 (mod_mul a b) ∧
      wval (mod_mul a b) < pval := by
  obtain ⟨hmv, hml, hmw⟩ := mulAll_spec a b (List.replicate 16 0)
    (by rw [ha.1, hb.1]; simp)
    (fun k _ => getD_replicate_zero 16 k)
    (by intro w hw
        have h0 := List.eq_of_mem_replicate hw
        subst h0
        norm_num)
    ha.2 hb.2
  rw [wval_replicate_zero] at hmv
  simp only [zero_add] at hmv
  have hml16 : (mulAll a b (List.replicate 16 0)).length = 16 := by
    rw [hml]; rfl
  have hab : wval a * wval b < 2 ^ 512 := by
    have h1 := wval_lt_u256 ha
    have h2 := wval_lt_u256 hb
    nlinarith [h1, h2]
  obtain ⟨hfz, hfl, hfw, hfm⟩ := foldIter6_spec hml16 hmw (hmv ▸ hab)
  have htk := wval_take_of_highZero hfl hfz
  have hu8 : U256 ((foldIter 6 (mulAll a b (List.replicate 16 0))).take 8) := by
    constructor
    · rw [List.length_take, hfl]
      norm_num
    · exact fun w hw => hfw w (List.take_subset _ _ hw)
  
  obtain ⟨hwv, hwu, hwlt⟩ := whileSubP_spec hu8
  refine ⟨?_, hwu, hwlt⟩
  show wval (whileSubP 2 _) = _
  rw [hwv, htk, hfm, hmv]

/-! ## `mod_pow` and `mod_inv` (Fermat inversion) -/

/-- `set_u64`: write a 64-bit value into the two low words. -/
def set_u64 (v : Nat) : List Nat :=
  [v % 2 ^ 32, v / 2 ^ 32 % 2 ^ 32, 0, 0, 0, 0, 0, 0]

/-- The 32-bit inner loop of `mod_pow`
(`if ((w >> j) & 1) mod_mul(r, r, b); mod_mul(b, b, b)`). -/
def powBits : Nat → Nat → List Nat → List Nat → List Nat × List Nat
  | 0, _, r, b => (r, b)
  | j + 1, w, r, b =>
      powBits j (w / 2) (if w % 2 = 1 then mod_mul r b else r) (mod_mul b b)

/-- The outer word loop of `mod_pow`. -/
def powWords : List Nat → List Nat → List Nat → List Nat × List Nat
  | [], r, b => (r, b)
  | w :: ws, r, b =>
      powWords ws (powBits 32 w r b).1 (powBits 32 w r b).2

/-- `mod_pow`: square-and-multiply over the 256-bit exponent. -/
def mod_pow (base exp : List Nat) : List Nat :=
  (powWords exp (set_u64 1) base).1

/-- `mod_inv`: Fermat inversion `a^(p-2) mod p`. -/
def mod_inv (a : List Nat) : List Nat :=
  mod_pow a (sub_b P_CONST (set_u64 2)).1

theorem bit_split (w j : Nat) :
    w % 2 ^ (j + 1) = w % 2 + 2 * (w / 2 % 2 ^ j) := by
  have hpow : 2 ^ (j + 1) = 2 * 2 ^ j := by rw [pow_succ]; ring
  have hq : w / 2 % 2 ^ j < 2 ^ j := Nat.mod_lt _ (pow_pos (by norm_num) j)
  have hs : w % 2 < 2 := Nat.mod_lt _ (by norm_num)
  have hd := Nat.div_add_mod w 2
  have hd2 := Nat.div_add_mod (w / 2) (2 ^ j)
  have hR : w % 2 + 2 * (w / 2 % 2 ^ j) < 2 ^ (j + 1) := by rw [hpow]; omega
  have hw2 : w = (w % 2 + 2 * (w / 2 % 2 ^ j)) + (w / 2 / 2 ^ j) * 2 ^ (j + 1) := by
    have hb : (w / 2 / 2 ^ j) * 2 ^ (j + 1) = 2 * (2 ^ j * (w / 2 / 2 ^ j)) := by
      rw [hpow]; ring
    rw [hb]; omega
  conv_lhs => rw [hw2]
  rw [Nat.add_mul_mod_self_right, Nat.mod_eq_of_lt hR]

theorem powBits_spec (j w : Nat) {r b : List Nat} (hr : U256 r) (hb : U256 b)
    (hrlt : wval r < pval) :
    Nat.ModEq pval (wval (powBits j w r b).1) (wval r * wval b ^ (w % 2 ^ j)) ∧
    U256 (powBits j w r b).1 ∧ wval (powBits j w r b).1 < pval ∧
    Nat.ModEq pval (wval (powBits j w r b).2) (wval b ^ 2 ^ j) ∧
    U256 (powBits j w r b).2 := by
  induction j generalizing w r b with
  | zero =>
      simp only [powBits, pow_zero, Nat.mod_one, mul_one]
      exact ⟨Nat.ModEq.refl _, hr, hrlt, by simpa using Nat.ModEq.refl (wval b), hb⟩
  | succ j ih =>
      obtain ⟨hbv, hbu, hblt⟩ := mod_mul_spec hb hb
      have hr2 : U256 (if w % 2 = 1 then mod_mul r b else r) := by
        by_cases h : w % 2 = 1
        · simpa [h] using (mod_mul_spec hr hb).2.1
        · simpa [h] using hr
      have hr2lt : wval (if w % 2 = 1 then mod_mul r b else r) < pval := by
        by_cases h : w % 2 = 1
        · simpa [h] using (mod_mul_spec hr hb).2.2
        · simpa [h] using hrlt
      obtain ⟨ih1, ih2, ih3, ih4, ih5⟩ := ih (w / 2) hr2 hbu hr2lt
      have hbsq : Nat.ModEq pval (wval (mod_mul b b)) (wval b ^ 2) := by
        rw [hbv, pow_two]
        exact (Nat.mod_modEq _ _)
      refine ⟨?_, ih2, ih3, ?_, ih5⟩
      · show Nat.ModEq pval (wval (powBits j (w / 2) _ (mod_mul b b)).1) _
        refine ih1.trans ?_
        have hmul : Nat.ModEq pval
            (wval (if w % 2 = 1 then mod_mul r b else r)) (wval r * wval b ^ (w % 2)) := by
          by_cases h : w % 2 = 1
          · simp only [h, ite_true, pow_one]
            rw [(mod_mul_spec hr hb).1]
            exact Nat.mod_modEq _ _
          · have h0 : w % 2 = 0 := by omega
            rw [if_neg h, h0, pow_zero, mul_one]
        calc wval (if w % 2 = 1 then mod_mul r b else r) * wval (mod_mul b b) ^ (w / 2 % 2 ^ j)
            ≡ (wval r * wval b ^ (w % 2)) * (wval b ^ 2) ^ (w / 2 % 2 ^ j) [MOD pval] :=
              hmul.mul (hbsq.pow _)
          _ = wval r * wval b ^ (w % 2 ^ (j + 1)) := by
              rw [bit_split w j]
              ring
      · show Nat.ModEq pval (wval (powBits j (w / 2) _ (mod_mul b b)).2) _
        refine ih4.trans ?_
        calc wval (mod_mul b b) ^ 2 ^ j
            ≡ (wval b ^ 2) ^ 2 ^ j [MOD pval] := hbsq.pow _
          _ = wval b ^ 2 ^ (j + 1) := by
              rw [← pow_mul, pow_succ, mul_comm]

theorem powWords_spec (ws : List Nat) {r b : List Nat} (hws : wordsLt ws)
    (hr : U256 r) (hb : U256 b) (hrlt : wval r < pval) :
    Nat.ModEq pval (wval (powWords ws r b).1) (wval r * wval b ^ wval ws) ∧
    U256 (powWords ws r b).1 ∧ wval (powWords ws r b).1 < pval := by
  induction ws generalizing r b with
  | nil =>
      simp only [powWords, wval, pow_zero, mul_one]
      exact ⟨Nat.ModEq.refl _, hr, hrlt⟩
  | cons w ws ih =>
      have hw : w < 2 ^ 32 := hws w (List.mem_cons_self _ _)
      have hws2 : wordsLt ws := fun x hx => hws x (List.mem_cons_of_mem _ hx)
      obtain ⟨hb1, hb2, hb3, hb4, hb5⟩ := powBits_spec 32 w hr hb hrlt
      obtain ⟨ihv, ihu, ihlt⟩ := ih hws2 hb2 hb5 hb3
      refine ⟨?_, ihu, ihlt⟩
      show Nat.ModEq pval (wval (powWords ws _ _).1) _
      refine ihv.trans ?_
      have hwmod : w % 2 ^ 32 = w := Nat.mod_eq_of_lt hw
      rw [hwmod] at hb1
      calc wval (powBits 32 w r b).1 * wval (powBits 32 w r b).2 ^ wval ws
          ≡ (wval r * wval b ^ w) * (wval b ^ 2 ^ 32) ^ wval ws [MOD pval] :=
            hb1.mul (hb4.pow _)
        _ = wval r * wval b ^ wval (w :: ws) := by
            show _ = wval r * wval b ^ (w + 2 ^ 32 * wval ws)
            ring

theorem set_u64_one : U256 (set_u64 1) ∧ wval (set_u64 1) = 1 := by decide

/-- `mod_pow` computes `base ^ exp mod p`, canonical in `[0, p)`. -/
theorem mod_pow_spec {base exp : List Nat} (hb : U256 base) (he : U256 exp) :
    wval (mod_pow base exp) = wval base ^ wval exp % pval ∧
    U256 (mod_pow base exp) ∧ wval (mod_pow base exp) < pval := by
  obtain ⟨h1, h2⟩ := set_u64_one
  obtain ⟨hv, hu, hlt⟩ := powWords_spec exp he.2 h1 hb (by rw [h2]; exact by decide)
  rw [h2, one_mul] at hv
  refine ⟨?_, hu, hlt⟩
  show wval (powWords exp (set_u64 1) base).1 = _
  have := hv.symm
  unfold Nat.ModEq at this
  rw [Nat.mod_eq_of_lt hlt] at this
  exact this.symm

theorem pminus2 : wval (sub_b P_CONST (set_u64 2)).1 = pval - 2 ∧
    U256 (sub_b P_CONST (set_u64 2)).1 := by decide

/-- `mod_inv` computes `a ^ (p - 2) mod p`. -/
theorem mod_inv_spec {a : List Nat} (ha : U256 a) :
    wval (mod_inv a) = wval a ^ (pval - 2) % pval ∧
    U256 (mod_inv a) ∧ wval (mod_inv a) < pval := by
  obtain ⟨h1, h2⟩ := pminus2
  obtain ⟨hv, hu, hlt⟩ := mod_pow_spec ha h2
  rw [h1] at hv
  exact ⟨hv, hu, hlt⟩

/-! ## Primality of `p` (Pratt/Lucas certificate chain)

`mod_inv` is Fermat inversion, so every inverse statement needs
`Nat.Prime pval`.  This is certified with `lucas_primality` through a
chain of helper primes, using a fuel-bounded binary `powModAux` that the
kernel can evaluate. -/

def powModAux : Nat → Nat → Nat → Nat → Nat
  | 0, n, _, _ => 1 % n
  | fuel + 1, n, a, e =>
      if e = 0 then 1 % n
      else if e % 2 = 1 then powModAux fuel n (a * a % n) (e / 2) * a % n
      else powModAux fuel n (a * a % n) (e / 2)

theorem powModAux_spec : ∀ (fuel n a e : Nat), 0 < n → e < 2 ^ fuel →
    powModAux fuel n a e = a ^ e % n
  | 0, n, a, e, _, he => by
      have h0 : e = 0 := by simpa using he
      subst h0
      simp [powModAux]
  | fuel + 1, n, a, e, hn, he => by
      by_cases h0 : e = 0
      · subst h0
        simp [powModAux]
      · have he2 : e / 2 < 2 ^ fuel := by
          rw [pow_succ] at he
          omega
        have ih := powModAux_spec fuel n (a * a % n) (e / 2) hn he2
        have hkey : (a * a % n) ^ (e / 2) % n = a ^ (2 * (e / 2)) % n := by
          rw [Nat.pow_mod, Nat.mod_mod_of_dvd _ dvd_rfl]
          rw [← Nat.pow_mod]
          congr 1
          rw [pow_mul, pow_two]
        by_cases hodd : e % 2 = 1
        · have hrw : powModAux (fuel + 1) n a e
              = powModAux fuel n (a * a % n) (e / 2) * a % n := by
            simp [powModAux, h0, hodd]
          have he3 : 2 * (e / 2) + 1 = e := by omega
          rw [hrw, ih, hkey, Nat.mod_mul_mod, ← pow_succ, he3]
        · have hrw : powModAux (fuel + 1) n a e
              = powModAux fuel n (a * a % n) (e / 2) := by
            simp [powModAux, h0, hodd]
          have he3 : 2 * (e / 2) = e := by omega
          rw [hrw, ih, hkey, he3]

theorem zmod_pow_iff (P a e : Nat) (hP : 1 < P) (he : e < 2 ^ 300) :
    ((a : ZMod P) ^ e = 1) ↔ powModAux 300 P a e = 1 := by
  rw [← Nat.cast_pow, ← Nat.cast_one, ZMod.natCast_eq_natCast_iff]
  unfold Nat.ModEq
  rw [powModAux_spec 300 P a e (by omega) he, Nat.mod_eq_of_lt hP]

theorem zmod_pow_of (P a e : Nat) (hP : 1 < P) (he : e < 2 ^ 300)
    (h : powModAux 300 P a e = 1) : ((a : ZMod P) ^ e = 1) :=
  (zmod_pow_iff P a e hP he).mpr h

theorem zmod_pow_ne (P a e : Nat) (hP : 1 < P) (he : e < 2 ^ 300)
    (h : powModAux 300 P a e ≠ 1) : ((a : ZMod P) ^ e ≠ 1) :=
  fun hc => h ((zmod_pow_iff P a e hP he).mp hc)

theorem prime_eq_of_dvd_pp {q r : Nat} (k : Nat) (hq : q.Prime) (hr : r.Prime)
    (h : q ∣ r ^ k) : q = r :=
  (Nat.prime_dvd_prime_iff_eq hq hr).mp (hq.dvd_of_dvd_pow h)

theorem prime_2621 : Nat.Prime 2621 := by norm_num
theorem prime_5323 : Nat.Prime 5323 := by norm_num
theorem prime_24809 : Nat.Prime 24809 := by norm_num
theorem prime_13331831 : Nat.Prime 13331831 := by norm_num
theorem prime_7240687 : Nat.Prime 7240687 := by norm_num
theorem prime_107590001 : Nat.Prime 107590001 := by
  have hfac : 107590001 - 1 = 2 ^ 4 * (5 ^ 4 * (7 * (29 * 53))) := by norm_num
  apply lucas_primality 107590001 ((3 : Nat) : ZMod 107590001)
  · exact zmod_pow_of _ _ _ (by norm_num) (by norm_num) (by decide)
  · intro q hq hdvd
    rw [hfac] at hdvd
    have hcase : q = 2 ∨ q = 5 ∨ q = 7 ∨ q = 29 ∨ q = 53 := by
      rcases (Nat.Prime.dvd_mul hq).mp hdvd with h | h
      · exact Or.inl (prime_eq_of_dvd_pp 4 hq (by norm_num) h)
      rcases (Nat.Prime.dvd_mul hq).mp h with h | h
      · exact Or.inr (Or.inl (prime_eq_of_dvd_pp 4 hq (by norm_num) h))
      rcases (Nat.Prime.dvd_mul hq).mp h with h | h
      · exact Or.inr (Or.inr (Or.inl ((Nat.prime_dvd_prime_iff_eq hq
          (by norm_num)).mp h)))
      rcases (Nat.Prime.dvd_mul hq).mp h with h | h
      · exact Or.inr (Or.inr (Or.inr (Or.inl ((Nat.prime_dvd_prime_iff_eq hq
          (by norm_num)).mp h))))
      exact Or.inr (Or.inr (Or.inr (Or.inr ((Nat.prime_dvd_prime_iff_eq hq
        (by norm_num)).mp h))))
    rcases hcase with h | h | h | h | h <;> subst h <;>
      exact zmod_pow_ne _ _ _ (by norm_num) (by norm_num) (by decide)
theorem prime_13441 : Nat.Prime 13441 := by norm_num
theorem prime_7723 : Nat.Prime 7723 := by norm_num
theorem prime_1627 : Nat.Prime 1627 := by norm_num
theorem prime_2657 : Nat.Prime 2657 := by norm_num
theorem prime_4423 : Nat.Prime 4423 := by norm_num
theorem prime_41201 : Nat.Prime 41201 := by norm_num
theorem prime_96557 : Nat.Prime 96557 := by norm_num

theorem prime_q18 : Nat.Prime 173378833005251801 := by
  have hfac : 173378833005251801 - 1 = 2 ^ 3 * (5 ^ 2 * (2621 * (24809 * (13331831)))) := by norm_num
  apply lucas_primality 173378833005251801 ((6 : Nat) : ZMod 173378833005251801)
  · exact zmod_pow_of _ _ _ (by norm_num) (by norm_num) (by decide)
  · intro q hq hdvd
    rw [hfac] at hdvd
    have hcase : q = 2 ∨ q = 5 ∨ q = 2621 ∨ q = 24809 ∨ q = 13331831 := by
      rcases (Nat.Prime.dvd_mul hq).mp hdvd with h | h
      · exact Or.inl (prime_eq_of_dvd_pp 3 hq (by norm_num) h)
      rcases (Nat.Prime.dvd_mul hq).mp h with h | h
      · exact Or.inr (Or.inl (prime_eq_of_dvd_pp 2 hq (by norm_num) h))
      rcases (Nat.Prime.dvd_mul hq).mp h with h | h
      · exact Or.inr (Or.inr (Or.inl ((Nat.prime_dvd_prime_iff_eq hq (prime_2621)).mp h)))
      rcases (Nat.Prime.dvd_mul hq).mp h with h | h
      · exact Or.inr (Or.inr (Or.inr (Or.inl ((Nat.prime_dvd_prime_iff_eq hq (prime_24809)).mp h))))
      exact Or.inr (Or.inr (Or.inr (Or.inr ((Nat.prime_dvd_prime_iff_eq hq (prime_13331831)).mp h))))
    rcases hcase with h | h | h | h | h <;> subst h <;>
      exact zmod_pow_ne _ _ _ (by norm_num) (by norm_num) (by decide)

theorem prime_q22 : Nat.Prime 22149492674086928081353 := by
  have hfac : 22149492674086928081353 - 1 = 2 ^ 3 * (3 * (5323 * (173378833005251801))) := by norm_num
  apply lucas_primality 22149492674086928081353 ((5 : Nat) : ZMod 22149492674086928081353)
  · exact zmod_pow_of _ _ _ (by norm_num) (by norm_num) (by decide)
  · intro q hq hdvd
    rw [hfac] at hdvd
    have hcase : q = 2 ∨ q = 3 ∨ q = 5323 ∨ q = 173378833005251801 := by
      rcases (Nat.Prime.dvd_mul hq).mp hdvd with h | h
      · exact Or.inl (prime_eq_of_dvd_pp 3 hq (by norm_num) h)
      rcases (Nat.Prime.dvd_mul hq).mp h with h | h
      · exact Or.inr (Or.inl ((Nat.prime_dvd_prime_iff_eq hq (by norm_num)).mp h))
      rcases (Nat.Prime.dvd_mul hq).mp h with h | h
      · exact Or.inr (Or.inr (Or.inl ((Nat.prime_dvd_prime_iff_eq hq (prime_5323)).mp h)))
      exact Or.inr (Or.inr (Or.inr ((Nat.prime_dvd_prime_iff_eq hq (prime_q18)).mp h)))
    rcases hcase with h | h | h | h <;> subst h <;>
      exact zmod_pow_ne _ _ _ (by norm_num) (by norm_num) (by decide)

theorem prime_q24 : Nat.Prime 132896956044521568488119 := by
  have hfac : 132896956044521568488119 - 1 = 2 * (3 * (22149492674086928081353)) := by norm_num
  apply lucas_primality 132896956044521568488119 ((6 : Nat) : ZMod 132896956044521568488119)
  · exact zmod_pow_of _ _ _ (by norm_num) (by norm_num) (by decide)
  · intro q hq hdvd
    rw [hfac] at hdvd
    have hcase : q = 2 ∨ q = 3 ∨ q = 22149492674086928081353 := by
      rcases (Nat.Prime.dvd_mul hq).mp hdvd with h | h
      · exact Or.inl ((Nat.prime_dvd_prime_iff_eq hq (by norm_num)).mp h)
      rcases (Nat.Prime.dvd_mul hq).mp h with h | h
      · exact Or.inr (Or.inl ((Nat.prime_dvd_prime_iff_eq hq (by norm_num)).mp h))
      exact Or.inr (Or.inr ((Nat.prime_dvd_prime_iff_eq hq (prime_q22)).mp h))
    rcases hcase with h | h | h <;> subst h <;>
      exact zmod_pow_ne _ _ _ (by norm_num) (by norm_num) (by decide)

theorem prime_q39 : Nat.Prime 255515944373312847190720520512484175977 := by
  have hfac : 255515944373312847190720520512484175977 - 1 = 2 ^ 3 * (7 ^ 2 * (11 * (1627 * (2657 * (4423 * (41201 * (96557 * (7240687 * (107590001))))))))) := by norm_num
  apply lucas_primality 255515944373312847190720520512484175977 ((3 : Nat) : ZMod 255515944373312847190720520512484175977)
  · exact zmod_pow_of _ _ _ (by norm_num) (by norm_num) (by decide)
  · intro q hq hdvd
    rw [hfac] at hdvd
    have hcase : q = 2 ∨ q = 7 ∨ q = 11 ∨ q = 1627 ∨ q = 2657 ∨ q = 4423 ∨ q = 41201 ∨ q = 96557 ∨ q = 7240687 ∨ q = 107590001 := by
      rcases (Nat.Prime.dvd_mul hq).mp hdvd with h | h
      · exact Or.inl (prime_eq_of_dvd_pp 3 hq (by norm_num) h)
      rcases (Nat.Prime.dvd_mul hq).mp h with h | h
      · exact Or.inr (Or.inl (prime_eq_of_dvd_pp 2 hq (by norm_num) h))
      rcases (Nat.Prime.dvd_mul hq).mp h with h | h
      · exact Or.inr (Or.inr (Or.inl ((Nat.prime_dvd_prime_iff_eq hq (by norm_num)).mp h)))
      rcases (Nat.Prime.dvd_mul hq).mp h with h | h
      · exact Or.inr (Or.inr (Or.inr (Or.inl ((Nat.prime_dvd_prime_iff_eq hq (prime_1627)).mp h))))
      rcases (Nat.Prime.dvd_mul hq).mp h with h | h
      · exact Or.inr (Or.inr (Or.inr (Or.inr (Or.inl ((Nat.prime_dvd_prime_iff_eq hq (prime_2657)).mp h)))))
      rcases (Nat.Prime.dvd_mul hq).mp h with h | h
      · exact Or.inr (Or.inr (Or.inr (Or.inr (Or.inr (Or.inl ((Nat.prime_dvd_prime_iff_eq hq (prime_4423)).mp h))))))
      rcases (Nat.Prime.dvd_mul hq).mp h with h | h
      · exact Or.inr (Or.inr (Or.inr (Or.inr (Or.inr (Or.inr (Or.inl ((Nat.prime_dvd_prime_iff_eq hq (prime_41201)).mp h)))))))
      rcases (Nat.Prime.dvd_mul hq).mp h with h | h
      · exact Or.inr (Or.inr (Or.inr (Or.inr (Or.inr (Or.inr (Or.inr (Or.inl ((Nat.prime_dvd_prime_iff_eq hq (prime_96557)).mp h))))))))
      rcases (Nat.Prime.dvd_mul hq).mp h with h | h
      · exact Or.inr (Or.inr (Or.inr (Or.inr (Or.inr (Or.inr (Or.inr (Or.inr (Or.inl ((Nat.prime_dvd_prime_iff_eq hq (prime_7240687)).mp h)))))))))
      exact Or.inr (Or.inr (Or.inr (Or.inr (Or.inr (Or.inr (Or.inr (Or.inr (Or.inr ((Nat.prime_dvd_prime_iff_eq hq (prime_107590001)).mp h)))))))))
    rcases hcase with h | h | h | h | h | h | h | h | h | h <;> subst h <;>
      exact zmod_pow_ne _ _ _ (by norm_num) (by norm_num) (by decide)

theorem prime_q72 : Nat.Prime 205115282021455665897114700593932402728804164701536103180137503955397371 := by
  have hfac : 205115282021455665897114700593932402728804164701536103180137503955397371 - 1 = 2 * (3 * (5 * (29 ^ 2 * (31 * (7723 * (132896956044521568488119 * (255515944373312847190720520512484175977))))))) := by norm_num
  apply lucas_primality 205115282021455665897114700593932402728804164701536103180137503955397371 ((10 : Nat) : ZMod 205115282021455665897114700593932402728804164701536103180137503955397371)
  · exact zmod_pow_of _ _ _ (by norm_num) (by norm_num) (by decide)
  · intro q hq hdvd
    rw [hfac] at hdvd
    have hcase : q = 2 ∨ q = 3 ∨ q = 5 ∨ q = 29 ∨ q = 31 ∨ q = 7723 ∨ q = 132896956044521568488119 ∨ q = 255515944373312847190720520512484175977 := by
      rcases (Nat.Prime.dvd_mul hq).mp hdvd with h | h
      · exact Or.inl ((Nat.prime_dvd_prime_iff_eq hq (by norm_num)).mp h)
      rcases (Nat.Prime.dvd_mul hq).mp h with h | h
      · exact Or.inr (Or.inl ((Nat.prime_dvd_prime_iff_eq hq (by norm_num)).mp h))
      rcases (Nat.Prime.dvd_mul hq).mp h with h | h
      · exact Or.inr (Or.inr (Or.inl ((Nat.prime_dvd_prime_iff_eq hq (by norm_num)).mp h)))
      rcases (Nat.Prime.dvd_mul hq).mp h with h | h
      · exact Or.inr (Or.inr (Or.inr (Or.inl (prime_eq_of_dvd_pp 2 hq (by norm_num) h))))
      rcases (Nat.Prime.dvd_mul hq).mp h with h | h
      · exact Or.inr (Or.inr (Or.inr (Or.inr (Or.inl ((Nat.prime_dvd_prime_iff_eq hq (by norm_num)).mp h)))))
      rcases (Nat.Prime.dvd_mul hq).mp h with h | h
      · exact Or.inr (Or.inr (Or.inr (Or.inr (Or.inr (Or.inl ((Nat.prime_dvd_prime_iff_eq hq (prime_7723)).mp h))))))
      rcases (Nat.Prime.dvd_mul hq).mp h with h | h
      · exact Or.inr (Or.inr (Or.inr (Or.inr (Or.inr (Or.inr (Or.inl ((Nat.prime_dvd_prime_iff_eq hq (prime_q24)).mp h)))))))
      exact Or.inr (Or.inr (Or.inr (Or.inr (Or.inr (Or.inr (Or.inr ((Nat.prime_dvd_prime_iff_eq hq (prime_q39)).mp h)))))))
    rcases hcase with h | h | h | h | h | h | h | h <;> subst h <;>
      exact zmod_pow_ne _ _ _ (by norm_num) (by norm_num) (by decide)

theorem prime_secp : Nat.Prime 115792089237316195423570985008687907853269984665640564039457584007908834671663 := by
  have hfac : 115792089237316195423570985008687907853269984665640564039457584007908834671663 - 1 = 2 * (3 * (7 * (13441 * (205115282021455665897114700593932402728804164701536103180137503955397371)))) := by norm_num
  apply lucas_primality 115792089237316195423570985008687907853269984665640564039457584007908834671663 ((3 : Nat) : ZMod 115792089237316195423570985008687907853269984665640564039457584007908834671663)
  · exact zmod_pow_of _ _ _ (by norm_num) (by norm_num) (by decide)
  · intro q hq hdvd
    rw [hfac] at hdvd
    have hcase : q = 2 ∨ q = 3 ∨ q = 7 ∨ q = 13441 ∨ q = 205115282021455665897114700593932402728804164701536103180137503955397371 := by
      rcases (Nat.Prime.dvd_mul hq).mp hdvd with h | h
      · exact Or.inl ((Nat.prime_dvd_prime_iff_eq hq (by norm_num)).mp h)
      rcases (Nat.Prime.dvd_mul hq).mp h with h | h
      · exact Or.inr (Or.inl ((Nat.prime_dvd_prime_iff_eq hq (by norm_num)).mp h))
      rcases (Nat.Prime.dvd_mul hq).mp h with h | h
      · exact Or.inr (Or.inr (Or.inl ((Nat.prime_dvd_prime_iff_eq hq (by norm_num)).mp h)))
      rcases (Nat.Prime.dvd_mul hq).mp h with h | h
      · exact Or.inr (Or.inr (Or.inr (Or.inl ((Nat.prime_dvd_prime_iff_eq hq (prime_13441)).mp h))))
      exact Or.inr (Or.inr (Or.inr (Or.inr ((Nat.prime_dvd_prime_iff_eq hq (prime_q72)).mp h))))
    rcases hcase with h | h | h | h | h <;> subst h <;>
      exact zmod_pow_ne _ _ _ (by norm_num) (by norm_num) (by decide)

theorem pval_prime : Nat.Prime pval := by
  have h : pval = 115792089237316195423570985008687907853269984665640564039457584007908834671663 := by norm_num [pval]
  rw [h]
  exact prime_secp

instance fact_pval_prime : Fact (Nat.Prime pval) := ⟨pval_prime⟩

/-! ## Bridge to the field `ZMod p` -/

/-- The field element represented by a `uint256`. -/
def toZ (a : List Nat) : ZMod pval := (wval a : ZMod pval)

theorem pval_big : 3 < pval := by norm_num [pval]

theorem toZ_mod_mul {a b : List Nat} (ha : U256 a) (hb : U256 b) :
    toZ (mod_mul a b) = toZ a * toZ b := by
  unfold toZ
  rw [(mod_mul_spec ha hb).1, ZMod.natCast_mod, Nat.cast_mul]

theorem toZ_mod_add {a b : List Nat} (ha : U256 a) (hb : U256 b)
    (hap : wval a < pval) (hbp : wval b < pval) :
    toZ (mod_add a b) = toZ a + toZ b := by
  unfold toZ
  rw [(mod_add_spec ha hb hap hbp).1, ZMod.natCast_mod, Nat.cast_add]

theorem toZ_mod_sub {a b : List Nat} (ha : U256 a) (hb : U256 b)
    (hap : wval a < pval) (hbp : wval b < pval) :
    toZ (mod_sub a b) = toZ a - toZ b := by
  unfold toZ
  rw [(mod_sub_spec ha hb hap hbp).1, ZMod.natCast_mod]
  have hle : wval b ≤ wval a + pval := by omega
  rw [Nat.cast_sub hle, Nat.cast_add, ZMod.natCast_self, add_zero]

theorem toZ_mod_inv {a : List Nat} (ha : U256 a) : toZ (mod_inv a) = (toZ a)⁻¹ := by
  unfold toZ
  rw [(mod_inv_spec ha).1, ZMod.natCast_mod, Nat.cast_pow]
  have hp3 := pval_big
  by_cases h : (wval a : ZMod pval) = 0
  · rw [h, zero_pow (by omega), inv_zero]
  · have h1 : (wval a : ZMod pval) ^ (pval - 1) = 1 := ZMod.pow_card_sub_one_eq_one h
    have h2 : (wval a : ZMod pval) * (wval a : ZMod pval) ^ (pval - 2) = 1 := by
      rw [← pow_succ']
      have he : pval - 2 + 1 = pval - 1 := by omega
      rw [he]
      exact h1
    exact (inv_eq_of_mul_eq_one_right h2).symm

theorem toZ_eq_zero_iff {a : List Nat} (hlt : wval a < pval) :
    toZ a = 0 ↔ wval a = 0 := by
  unfold toZ
  rw [ZMod.natCast_zmod_eq_zero_iff_dvd]
  constructor
  · intro h
    exact Nat.eq_zero_of_dvd_of_lt h hlt
  · intro h
    rw [h]
    exact dvd_zero _

/-! ## Claim C7 -/

/-- C7: for all field elements `a, b` in `[0, p)`, `mod_mul a b` returns
`a * b mod p`, again in `[0, p)`: the schoolbook multiply produces
sixteen 32-bit words, the fold by `c = 2^32 + 977` reaches a zero high
half within its six bounded iterations, and the final subtraction loop
leaves the result strictly below `p`. -/
theorem C7_mod_mul_correct {a b : List Nat} (ha : U256 a) (hb : U256 b)
    (hap : wval a < pval) (hbp : wval b < pval) :
    wval (mod_mul a b) = wval a * wval b % pval ∧
    U256 (mod_mul a b) ∧
    wval (mod_mul a b) < pval ∧
    (mulAll a b (List.replicate 16 0)).length = 16 ∧
    wordsLt (mulAll a b (List.replicate 16 0)) ∧
    highZero (foldIter 6 (mulAll a b (List.replicate 16 0))) = true := by
  obtain ⟨h1, h2, h3⟩ := mod_mul_spec ha hb
  obtain ⟨hmv, hml, hmw⟩ := mulAll_spec a b (List.replicate 16 0)
    (by rw [ha.1, hb.1]; simp)
    (fun k _ => getD_replicate_zero 16 k)
    (by intro w hw
        have h0 := List.eq_of_mem_replicate hw
        subst h0
        norm_num)
    ha.2 hb.2
  rw [wval_replicate_zero] at hmv
  simp only [zero_add] at hmv
  have hml16 : (mulAll a b (List.replicate 16 0)).length = 16 := by rw [hml]; rfl
  have hab : wval a * wval b < 2 ^ 512 := by
    have hx := wval_lt_u256 ha
    have hy := wval_lt_u256 hb
    nlinarith [hx, hy]
  obtain ⟨hfz, _, _, _⟩ := foldIter6_spec hml16 hmw (hmv ▸ hab)
  exact ⟨h1, h2, h3, hml16, hmw, hfz⟩

/-- Witness for C7 at a concrete input. -/
theorem C7_mod_mul_correct_witness :
    U256 [3, 0, 0, 0, 0, 0, 0, 0] ∧ U256 [5, 0, 0, 0, 0, 0, 0, 0] ∧
    wval [3, 0, 0, 0, 0, 0, 0, 0] < pval ∧ wval [5, 0, 0, 0, 0, 0, 0, 0] < pval ∧
    (wval (mod_mul [3, 0, 0, 0, 0, 0, 0, 0] [5, 0, 0, 0, 0, 0, 0, 0])
        = wval [3, 0, 0, 0, 0, 0, 0, 0] * wval [5, 0, 0, 0, 0, 0, 0, 0] % pval ∧
      U256 (mod_mul [3, 0, 0, 0, 0, 0, 0, 0] [5, 0, 0, 0, 0, 0, 0, 0]) ∧
      wval (mod_mul [3, 0, 0, 0, 0, 0, 0, 0] [5, 0, 0, 0, 0, 0, 0, 0]) < pval ∧
      (mulAll [3, 0, 0, 0, 0, 0, 0, 0] [5, 0, 0, 0, 0, 0, 0, 0]
          (List.replicate 16 0)).length = 16 ∧
      wordsLt (mulAll [3, 0, 0, 0, 0, 0, 0, 0] [5, 0, 0, 0, 0, 0, 0, 0]
          (List.replicate 16 0)) ∧
      highZero (foldIter 6 (mulAll [3, 0, 0, 0, 0, 0, 0, 0] [5, 0, 0, 0, 0, 0, 0, 0]
          (List.replicate 16 0))) = true) :=
  ⟨by decide, by decide, by norm_num [wval, pval], by norm_num [wval, pval],
    C7_mod_mul_correct (by decide) (by decide)
      (by norm_num [wval, pval]) (by norm_num [wval, pval])⟩

/-! ## Workgroup batch inversion: the Blelloch scans (C2)

The barrier-delimited phases of the kernel are modelled as simultaneous
array updates; the arrays are lists of 256 entries, parametric in the
element type so that the same code is instantiated with kernel words
(`mod_mul`), with canonical field elements, and with `ZMod p`, where the
level-by-level loop invariants of the three sweeps are proved. -/

/-- Map a function of the position index over a list. -/
def applyIdx (F : Nat → A → A) : Nat → List A → List A
  | _, [] => []
  | i, x :: xs => F i x :: applyIdx F (i + 1) xs

/-- One up-sweep level at stride `s`
(`idx = (lid+1)*2s - 1 < 256; prefix[idx] = prefix[idx-s] * prefix[idx]`). -/
def upLevel (op : A → A → A) (s : Nat) (l : List A) : List A :=
  applyIdx (fun i x => if (i + 1) % (2 * s) = 0 then op (l.getD (i - s) x) x else x) 0 l

/-- One down-sweep level at stride `s` (the Blelloch swap-and-combine). -/
def downLevel (op : A → A → A) (s : Nat) (l : List A) : List A :=
  applyIdx (fun i x =>
    if (i + 1) % (2 * s) = 0 then op (l.getD (i - s) x) x
    else if (i + 1 + s) % (2 * s) = 0 ∧ i + s < l.length then l.getD (i + s) x
    else x) 0 l

/-- One level of the inclusive right-to-left suffix scan
(`suffix[lid] = suffix[lid] * suffix[lid+s]` when in range). -/
def suffLevel (op : A → A → A) (s : Nat) (l : List A) : List A :=
  applyIdx (fun i x => if i + s < l.length then op x (l.getD (i + s) x) else x) 0 l

/-- The strides `1, 2, ..., 128` of the `for (stride ...)` loops. -/
def strides : List Nat := [1, 2, 4, 8, 16, 32, 64, 128]

def sweep (level : Nat → List A → List A) (ss : List Nat) (l : List A) : List A :=
  ss.foldl (fun acc s => level s acc) l

def upSweep (op : A → A → A) (l : List A) : List A := sweep (upLevel op) strides l

def downSweep (op : A → A → A) (l : List A) : List A :=
  sweep (downLevel op) strides.reverse l

def suffScan (op : A → A → A) (l : List A) : List A := sweep (suffLevel op) strides l

/-! ### Transport of the scans along a homomorphism -/

theorem getD_map (f : A → B) (l : List A) (n : Nat) (d : A) :
    (l.map f).getD n (f d) = f (l.getD n d) := by
  induction l generalizing n with
  | nil => simp [List.getD]
  | cons x xs ih =>
      cases n with
      | zero => simp [List.getD]
      | succ n => simpa [List.getD_cons_succ] using ih n

theorem map_applyIdx (f : A → B) (F : Nat → A → A) (G : Nat → B → B)
    (hFG : ∀ i x, f (F i x) = G i (f x)) :
    ∀ (n : Nat) (l : List A), (applyIdx F n l).map f = applyIdx G n (l.map f)
  | _, [] => by simp [applyIdx]
  | n, x :: xs => by
      simp only [applyIdx, List.map_cons, hFG, map_applyIdx f F G hFG (n + 1) xs]

theorem map_upLevel (f : A → B) (opA : A → A → A) (opB : B → B → B)
    (hf : ∀ x y, f (opA x y) = opB (f x) (f y)) (s : Nat) (l : List A) :
    (upLevel opA s l).map f = upLevel opB s (l.map f) := by
  unfold upLevel
  apply map_applyIdx
  intro i x
  by_cases h : (i + 1) % (2 * s) = 0
  · simp only [h, if_true, hf, getD_map]
  · simp only [h, if_false, ite_false]

theorem map_downLevel (f : A → B) (opA : A → A → A) (opB : B → B → B)
    (hf : ∀ x y, f (opA x y) = opB (f x) (f y)) (s : Nat) (l : List A) :
    (downLevel opA s l).map f = downLevel opB s (l.map f) := by
  unfold downLevel
  apply map_applyIdx
  intro i x
  by_cases h1 : (i + 1) % (2 * s) = 0
  · simp only [h1, if_true, hf, getD_map]
  · by_cases h2 : (i + 1 + s) % (2 * s) = 0 ∧ i + s < l.length
    · rw [if_neg h1, if_pos h2, if_neg (by simpa using h1),
        if_pos (by simpa using h2), getD_map]
    · rw [if_neg h1, if_neg h2, if_neg (by simpa using h1), if_neg (by simpa using h2)]

theorem map_suffLevel (f : A → B) (opA : A → A → A) (opB : B → B → B)
    (hf : ∀ x y, f (opA x y) = opB (f x) (f y)) (s : Nat) (l : List A) :
    (suffLevel opA s l).map f = suffLevel opB s (l.map f) := by
  unfold suffLevel
  apply map_applyIdx
  intro i x
  by_cases h : i + s < l.length
  · rw [if_pos h, if_pos (by simpa using h), hf, getD_map]
  · rw [if_neg h, if_neg (by simpa using h)]

theorem map_sweep (f : A → B) (levA : Nat → List A → List A)
    (levB : Nat → List B → List B)
    (hlev : ∀ s l, (levA s l).map f = levB s (l.map f)) :
    ∀ (ss : List Nat) (l : List A), (sweep levA ss l).map f = sweep levB ss (l.map f)
  | [], l => by simp [sweep]
  | s :: ss, l => by
      simp only [sweep, List.foldl_cons]
      have := map_sweep f levA levB hlev ss (levA s l)
      simp only [sweep] at this
      rw [this, hlev]

theorem map_upSweep (f : A → B) (opA : A → A → A) (opB : B → B → B)
    (hf : ∀ x y, f (opA x y) = opB (f x) (f y)) (l : List A) :
    (upSweep opA l).map f = upSweep opB (l.map f) :=
  map_sweep f _ _ (map_upLevel f opA opB hf) strides l

theorem map_downSweep (f : A → B) (opA : A → A → A) (opB : B → B → B)
    (hf : ∀ x y, f (opA x y) = opB (f x) (f y)) (l : List A) :
    (downSweep opA l).map f = downSweep opB (l.map f) :=
  map_sweep f _ _ (map_downLevel f opA opB hf) strides.reverse l

theorem map_suffScan (f : A → B) (opA : A → A → A) (opB : B → B → B)
    (hf : ∀ x y, f (opA x y) = opB (f x) (f y)) (l : List A) :
    (suffScan opA l).map f = suffScan opB (l.map f) :=
  map_sweep f _ _ (map_suffLevel f opA opB hf) strides l

/-! ### The kernel batch-inversion stages (source lines 500–614) -/

/-- The kernel constant `ONE`. -/
def ONE : List Nat := [1, 0, 0, 0, 0, 0, 0, 0]

/-- The exclusive prefix-product array: up-sweep, `prefix[255] := ONE`,
down-sweep. -/
def prefixScan (z : List (List Nat)) : List (List Nat) :=
  downSweep mod_mul ((upSweep mod_mul z).set 255 ONE)

/-- `total_inv`: the one `mod_inv` per workgroup, applied to
`prefix[255]` after the up-sweep. -/
def totalInv (z : List (List Nat)) : List Nat :=
  mod_inv ((upSweep mod_mul z).getD 255 ONE)

/-- The inclusive right-to-left suffix-product array. -/
def suffixScan (z : List (List Nat)) : List (List Nat) := suffScan mod_mul z

/-- The per-lane combination
`invZ = prefix[lid] * total_inv * (lid < 255 ? suffix[lid+1] : 1)`. -/
def invZ (z : List (List Nat)) (lid : Nat) : List Nat :=
  if lid < 255 then
    mod_mul (mod_mul ((prefixScan z).getD lid ONE) (totalInv z))
      ((suffixScan z).getD (lid + 1) ONE)
  else
    mod_mul ((prefixScan z).getD lid ONE) (totalInv z)
theorem applyIdx_length (F : Nat → A → A) :
    ∀ (n : Nat) (l : List A), (applyIdx F n l).length = l.length
  | _, [] => rfl
  | n, _ :: xs => by simp [applyIdx, applyIdx_length F (n + 1) xs]

theorem upLevel_length (op : A → A → A) (s : Nat) (l : List A) :
    (upLevel op s l).length = l.length := applyIdx_length _ 0 l

theorem downLevel_length (op : A → A → A) (s : Nat) (l : List A) :
    (downLevel op s l).length = l.length := applyIdx_length _ 0 l

theorem suffLevel_length (op : A → A → A) (s : Nat) (l : List A) :
    (suffLevel op s l).length = l.length := applyIdx_length _ 0 l

theorem sweep_length (lev : Nat → List A → List A)
    (hlev : ∀ s l, (lev s l).length = l.length) :
    ∀ (ss : List Nat) (l : List A), (sweep lev ss l).length = l.length
  | [], _ => rfl
  | s :: ss, l => by
      simp only [sweep, List.foldl_cons]
      have := sweep_length lev hlev ss (lev s l)
      simp only [sweep] at this
      rw [this, hlev]

theorem upSweep_length (op : A → A → A) (l : List A) :
    (upSweep op l).length = l.length := sweep_length _ (upLevel_length op) strides l

theorem downSweep_length (op : A → A → A) (l : List A) :
    (downSweep op l).length = l.length :=
  sweep_length _ (downLevel_length op) strides.reverse l

theorem suffScan_length (op : A → A → A) (l : List A) :
    (suffScan op l).length = l.length := sweep_length _ (suffLevel_length op) strides l
/-! ### Transport: kernel words → canonical field elements → `ZMod p` -/

/-- Canonical field elements: eight machine words with value below `p`. -/
def FE := {l : List Nat // U256 l ∧ wval l < pval}

def fmul (a b : FE) : FE :=
  ⟨mod_mul a.1 b.1, (mod_mul_spec a.2.1 b.2.1).2.1, (mod_mul_spec a.2.1 b.2.1).2.2⟩

theorem ONE_ok : U256 ONE ∧ wval ONE < pval := by
  constructor
  · decide
  · norm_num [ONE, wval, pval]

def oneFE : FE := ⟨ONE, ONE_ok⟩

def toZF (a : FE) : ZMod pval := toZ a.1

theorem fmul_val (a b : FE) : (fmul a b).1 = mod_mul a.1 b.1 := rfl

theorem toZF_fmul (a b : FE) : toZF (fmul a b) = toZF a * toZF b :=
  toZ_mod_mul a.2.1 b.2.1

theorem pmap_val (z : List (List Nat)) (H : ∀ w ∈ z, U256 w ∧ wval w < pval) :
    (z.pmap (fun w h => (⟨w, h⟩ : FE)) H).map Subtype.val = z := by
  induction z with
  | nil => rfl
  | cons x xs ih => simp [List.pmap, ih]

theorem pmap_toZF (z : List (List Nat)) (H : ∀ w ∈ z, U256 w ∧ wval w < pval) :
    (z.pmap (fun w h => (⟨w, h⟩ : FE)) H).map toZF = z.map toZ := by
  induction z with
  | nil => rfl
  | cons x xs ih => simp [List.pmap, toZF, ih]
/-! ### Pointwise semantics of one simultaneous update -/

theorem applyIdx_getD (F : Nat → A → A) (e : A) :
    ∀ (k : Nat) (l : List A) (i : Nat), i < l.length →
      (applyIdx F k l).getD i e = F (k + i) (l.getD i e)
  | _, [], i, h => absurd h (Nat.not_lt_zero i)
  | _, _ :: _, 0, _ => by simp [applyIdx]
  | k, x :: xs, i + 1, h => by
      have ih := applyIdx_getD F e (k + 1) xs i (by simpa using h)
      simp only [applyIdx, List.getD_cons_succ]
      rw [ih]
      congr 1
      omega

theorem applyIdx_getD0 (F : Nat → A → A) (e : A) (l : List A) {i : Nat}
    (h : i < l.length) : (applyIdx F 0 l).getD i e = F i (l.getD i e) := by
  have h2 := applyIdx_getD F e 0 l i h
  simpa using h2

theorem getD_default_eq {l : List A} {i : Nat} (h : i < l.length) (d e : A) :
    l.getD i d = l.getD i e := by
  rw [List.getD_eq_getElem l d h, List.getD_eq_getElem l e h]

/-! ### Divisibility helpers for the stride arithmetic -/

theorem not_two_stride_dvd_sub {s n : Nat} (hs : 0 < s) (hn : 0 < n)
    (h : 2 * s ∣ n) : ¬ 2 * s ∣ n - s := by
  intro h2
  have hle : 2 * s ≤ n := Nat.le_of_dvd hn h
  have h3 : 2 * s ∣ n - (n - s) := Nat.dvd_sub' h h2
  have h4 : n - (n - s) = s := by omega
  rw [h4] at h3
  have h5 := Nat.le_of_dvd hs h3
  omega

theorem two_stride_dvd_add {s n : Nat} (h1 : s ∣ n) (h2 : ¬ 2 * s ∣ n) :
    2 * s ∣ n + s := by
  obtain ⟨q, rfl⟩ := h1
  rcases Nat.even_or_odd q with he | ho
  · obtain ⟨r, rfl⟩ := he
    exact absurd ⟨r, by ring⟩ h2
  · obtain ⟨r, rfl⟩ := ho
    exact ⟨r + 1, by ring⟩

theorem add_stride_le {s n N : Nat} (hN : 2 * s ∣ N) (h1 : s ∣ n) (h2 : ¬ 2 * s ∣ n)
    (hn : n ≤ N) : n + s ≤ N := by
  obtain ⟨q, rfl⟩ := h1
  obtain ⟨m, hm⟩ := hN
  have hs : 0 < s := by
    rcases Nat.eq_zero_or_pos s with h | h
    · exfalso; apply h2; subst h; simp
    · exact h
  have hne : q ≠ 2 * m := by
    intro h
    exact h2 ⟨m, by rw [h]; ring⟩
  have hle : q ≤ 2 * m := by
    by_contra hgt
    push_neg at hgt
    have h3 : s * (2 * m + 1) ≤ s * q := Nat.mul_le_mul_left s (by omega)
    have e1 : s * (2 * m + 1) = 2 * s * m + s := by ring
    omega
  have h4 : s * (q + 1) ≤ s * (2 * m) := Nat.mul_le_mul_left s (by omega)
  have e2 : s * (q + 1) = s * q + s := by ring
  have e3 : s * (2 * m) = 2 * s * m := by ring
  omega

/-- Every positive number has a well-defined lowest set bit. -/
theorem exists_lowbit : ∀ n : Nat, 0 < n → ∃ k, 2 ^ k ∣ n ∧ ¬ 2 ^ (k + 1) ∣ n := by
  intro n
  induction n using Nat.strong_induction_on with
  | _ n ih =>
    intro hn
    rcases Nat.even_or_odd n with he | ho
    · obtain ⟨m, rfl⟩ := he
      obtain ⟨k, hk1, hk2⟩ := ih m (by omega) (by omega)
      refine ⟨k + 1, ?_, ?_⟩
      · obtain ⟨r, rfl⟩ := hk1
        exact ⟨r, by ring⟩
      · intro hdvd
        apply hk2
        obtain ⟨r, hr⟩ := hdvd
        refine ⟨r, ?_⟩
        have e3 : 2 ^ (k + 1 + 1) * r = 2 * (2 ^ (k + 1) * r) := by ring
        omega
    · obtain ⟨m, rfl⟩ := ho
      refine ⟨0, Nat.one_dvd _, ?_⟩
      intro hdvd
      obtain ⟨r, hr⟩ := hdvd
      have e : (2 : Nat) ^ (0 + 1) = 2 := by norm_num
      rw [e] at hr
      omega

theorem pow_two_dvd_lower {t j : Nat} (ht : t ∣ 2 ^ (j + 1)) (hne : t ≠ 2 ^ (j + 1)) :
    t ∣ 2 ^ j := by
  obtain ⟨a, ha, rfl⟩ := (Nat.dvd_prime_pow Nat.prime_two).mp ht
  have haj : a ≤ j := by
    rcases Nat.lt_or_ge a (j + 1) with h | h
    · omega
    · exact absurd (congrArg (2 ^ ·) (Nat.le_antisymm ha h)) hne
  exact pow_dvd_pow 2 haj

theorem pow_two_eq_of_exact {k j n : Nat} (h2 : ¬ 2 ^ (k + 1) ∣ n)
    (h3 : 2 ^ (j + 1) ∣ n) (h4 : 2 ^ k ≤ 2 ^ (j + 1)) : 2 ^ k = 2 ^ (j + 1) := by
  have hk : k ≤ j + 1 := (Nat.pow_le_pow_iff_right (by norm_num)).mp h4
  rcases Nat.lt_or_ge k (j + 1) with h | h
  · exact absurd (dvd_trans (pow_dvd_pow 2 (by omega : k + 1 ≤ j + 1)) h3) h2
  · rw [Nat.le_antisymm hk h]

/-! ### Structural characterization of the three scans

The loop invariants of the kernel's Blelloch up-sweep, down-sweep and
suffix scan are proved level by level over an arbitrary commutative
monoid; the kernel instance is `ZMod p` through the transport below. -/

section ScanChar

variable {M : Type} [CommMonoid M]

/-- The product of `x` over the index segment `[a, a+n)`. -/
def seg (x : Nat → M) (a n : Nat) : M := ((List.range' a n).map x).prod

theorem seg_zero (x : Nat → M) (a : Nat) : seg x a 0 = 1 := rfl

theorem seg_one (x : Nat → M) (a : Nat) : seg x a 1 = x a := by
  simp [seg]

theorem seg_append (x : Nat → M) (a m n : Nat) :
    seg x a m * seg x (a + m) n = seg x a (m + n) := by
  unfold seg
  rw [← List.prod_append, ← List.map_append, List.range'_append_1, Nat.add_comm n m]

/-- Up-sweep invariant before the level of stride `m`: each cell `i`
whose lowest set bit `t` of `i+1` satisfies `t ≤ m` holds the product of
the `t` lanes ending at lane `i`. -/
def Uinv (x : Nat → M) (m : Nat) (l : List M) : Prop :=
  ∀ i, i < 256 → ∀ t, t ∣ m → t ∣ i + 1 → (¬ 2 * t ∣ i + 1 ∨ t = m) →
    l.getD i 1 = seg x (i + 1 - t) t

theorem Uinv_init (l : List M) : Uinv (fun j => l.getD j 1) 1 l := by
  intro i _ t ht _ _
  have h1 : t = 1 := Nat.eq_one_of_dvd_one ht
  subst h1
  have h2 : i + 1 - 1 = i := rfl
  rw [seg_one, h2]

theorem upLevel_inv (x : Nat → M) (j : Nat) (l : List M) (hlen : l.length = 256)
    (hinv : Uinv x (2 ^ j) l) :
    Uinv x (2 ^ (j + 1)) (upLevel (· * ·) (2 ^ j) l) := by
  intro i hi t ht hti htor
  have hil : i < l.length := by omega
  have hpos : 0 < (2 : Nat) ^ j := Nat.pow_pos (by norm_num)
  have hpow : (2 : Nat) * 2 ^ j = 2 ^ (j + 1) := by ring
  unfold upLevel
  rw [applyIdx_getD0 _ _ l hil]
  dsimp only
  by_cases hd : 2 * 2 ^ j ∣ i + 1
  · rw [if_pos (Nat.dvd_iff_mod_eq_zero.mp hd)]
    have htt : t = 2 ^ (j + 1) := by
      by_contra hne
      have ht2 : t ∣ 2 ^ j := pow_two_dvd_lower ht hne
      have h2t : 2 * t ∣ i + 1 := dvd_trans (Nat.mul_dvd_mul_left 2 ht2) hd
      rcases htor with hne2 | he
      · exact hne2 h2t
      · exact hne he
    subst htt
    have h2le : 2 * 2 ^ j ≤ i + 1 := Nat.le_of_dvd (by omega) hd
    have hji : 2 ^ j ∣ i + 1 := dvd_trans ⟨2, by ring⟩ hd
    have hoi : l.getD i 1 = seg x (i + 1 - 2 ^ j) (2 ^ j) :=
      hinv i hi (2 ^ j) dvd_rfl hji (Or.inr rfl)
    have hidx : i - 2 ^ j < 256 := by omega
    have heq : i - 2 ^ j + 1 = i + 1 - 2 ^ j := by omega
    have hdvd1 : 2 ^ j ∣ i - 2 ^ j + 1 := by
      rw [heq]; exact Nat.dvd_sub' hji dvd_rfl
    have hdvd2 : ¬ 2 * 2 ^ j ∣ i - 2 ^ j + 1 := by
      rw [heq]
      exact not_two_stride_dvd_sub hpos (by omega) hd
    have hleft : l.getD (i - 2 ^ j) 1 = seg x (i + 1 - 2 * 2 ^ j) (2 ^ j) := by
      have h5 := hinv (i - 2 ^ j) hidx (2 ^ j) dvd_rfl hdvd1 (Or.inl hdvd2)
      rw [h5, heq]
      congr 1
      omega
    rw [getD_default_eq (show i - 2 ^ j < l.length by omega) (l.getD i 1) 1, hleft, hoi]
    have e1 : i + 1 - 2 * 2 ^ j + 2 ^ j = i + 1 - 2 ^ j := by omega
    have e2 : (2 : Nat) ^ j + 2 ^ j = 2 ^ (j + 1) := by ring
    have e3 : i + 1 - 2 * 2 ^ j = i + 1 - 2 ^ (j + 1) := by omega
    calc seg x (i + 1 - 2 * 2 ^ j) (2 ^ j) * seg x (i + 1 - 2 ^ j) (2 ^ j)
        = seg x (i + 1 - 2 * 2 ^ j) (2 ^ j) *
            seg x (i + 1 - 2 * 2 ^ j + 2 ^ j) (2 ^ j) := by rw [e1]
      _ = seg x (i + 1 - 2 * 2 ^ j) (2 ^ j + 2 ^ j) := seg_append x _ _ _
      _ = seg x (i + 1 - 2 ^ (j + 1)) (2 ^ (j + 1)) := by rw [e3, e2]
  · rw [if_neg (fun hmod => hd (Nat.dvd_iff_mod_eq_zero.mpr hmod))]
    have htne : t ≠ 2 ^ (j + 1) := by
      rintro rfl
      apply hd
      rw [hpow]
      exact hti
    have ht2 : t ∣ 2 ^ j := pow_two_dvd_lower ht htne
    have hor2 : ¬ 2 * t ∣ i + 1 ∨ t = 2 ^ j := by
      rcases htor with h | h
      · exact Or.inl h
      · exact absurd h htne
    exact hinv i hi t ht2 hti hor2

theorem upSweep_inv (x : Nat → M) (l : List M) (hlen : l.length = 256)
    (h0 : Uinv x 1 l) : Uinv x 256 (upSweep (· * ·) l) := by
  have h1 : Uinv x 2 (upLevel (· * ·) 1 l) := upLevel_inv x 0 l hlen h0
  have L1 : (upLevel (· * ·) 1 l).length = 256 := by rw [upLevel_length]; exact hlen
  have h2 : Uinv x 4 (upLevel (· * ·) 2 (upLevel (· * ·) 1 l)) :=
    upLevel_inv x 1 _ L1 h1
  have L2 : (upLevel (· * ·) 2 (upLevel (· * ·) 1 l)).length = 256 := by
    rw [upLevel_length]; exact L1
  have h3 : Uinv x 8 (upLevel (· * ·) 4 (upLevel (· * ·) 2 (upLevel (· * ·) 1 l))) :=
    upLevel_inv x 2 _ L2 h2
  have L3 : (upLevel (· * ·) 4 (upLevel (· * ·) 2 (upLevel (· * ·) 1 l))).length
      = 256 := by rw [upLevel_length]; exact L2
  have h4 : Uinv x 16 (upLevel (· * ·) 8 (upLevel (· * ·) 4 (upLevel (· * ·) 2
      (upLevel (· * ·) 1 l)))) := upLevel_inv x 3 _ L3 h3
  have L4 : (upLevel (· * ·) 8 (upLevel (· * ·) 4 (upLevel (· * ·) 2
      (upLevel (· * ·) 1 l)))).length = 256 := by rw [upLevel_length]; exact L3
  have h5 : Uinv x 32 (upLevel (· * ·) 16 (upLevel (· * ·) 8 (upLevel (· * ·) 4
      (upLevel (· * ·) 2 (upLevel (· * ·) 1 l))))) := upLevel_inv x 4 _ L4 h4
  have L5 : (upLevel (· * ·) 16 (upLevel (· * ·) 8 (upLevel (· * ·) 4 (upLevel (· * ·) 2
      (upLevel (· * ·) 1 l))))).length = 256 := by rw [upLevel_length]; exact L4
  have h6 : Uinv x 64 (upLevel (· * ·) 32 (upLevel (· * ·) 16 (upLevel (· * ·) 8
      (upLevel (· * ·) 4 (upLevel (· * ·) 2 (upLevel (· * ·) 1 l)))))) :=
    upLevel_inv x 5 _ L5 h5
  have L6 : (upLevel (· * ·) 32 (upLevel (· * ·) 16 (upLevel (· * ·) 8 (upLevel (· * ·) 4
      (upLevel (· * ·) 2 (upLevel (· * ·) 1 l)))))).length = 256 := by
    rw [upLevel_length]; exact L5
  have h7 : Uinv x 128 (upLevel (· * ·) 64 (upLevel (· * ·) 32 (upLevel (· * ·) 16
      (upLevel (· * ·) 8 (upLevel (· * ·) 4 (upLevel (· * ·) 2
      (upLevel (· * ·) 1 l))))))) := upLevel_inv x 6 _ L6 h6
  have L7 : (upLevel (· * ·) 64 (upLevel (· * ·) 32 (upLevel (· * ·) 16 (upLevel (· * ·) 8
      (upLevel (· * ·) 4 (upLevel (· * ·) 2 (upLevel (· * ·) 1 l))))))).length
      = 256 := by rw [upLevel_length]; exact L6
  have h8 : Uinv x 256 (upLevel (· * ·) 128 (upLevel (· * ·) 64 (upLevel (· * ·) 32
      (upLevel (· * ·) 16 (upLevel (· * ·) 8 (upLevel (· * ·) 4 (upLevel (· * ·) 2
      (upLevel (· * ·) 1 l)))))))) := upLevel_inv x 7 _ L7 h7
  have hexp : upSweep (· * ·) l = upLevel (· * ·) 128 (upLevel (· * ·) 64
      (upLevel (· * ·) 32 (upLevel (· * ·) 16 (upLevel (· * ·) 8 (upLevel (· * ·) 4
      (upLevel (· * ·) 2 (upLevel (· * ·) 1 l))))))) := rfl
  rw [hexp]
  exact h8

/-- The root of the up-sweep holds the full workgroup product. -/
theorem upSweep_getD_last (l : List M) (hlen : l.length = 256) :
    (upSweep (· * ·) l).getD 255 1 = seg (fun j => l.getD j 1) 0 256 := by
  have h := upSweep_inv (fun j => l.getD j 1) l hlen (Uinv_init l)
  have h2 := h 255 (by norm_num) 256 dvd_rfl (by norm_num) (Or.inr rfl)
  rw [h2]

/-- Suffix-scan invariant before the level of stride `m`: cell `i` holds
the product of lanes `i` through `min (i+m-1) 255`. -/
def Sinv (x : Nat → M) (m : Nat) (l : List M) : Prop :=
  ∀ i, i < 256 → l.getD i 1 = seg x i (min m (256 - i))

theorem Sinv_init (l : List M) : Sinv (fun j => l.getD j 1) 1 l := by
  intro i hi
  have h1 : min 1 (256 - i) = 1 := by omega
  rw [h1, seg_one]

theorem suffLevel_inv (x : Nat → M) (s : Nat) (l : List M) (hs : 0 < s)
    (hlen : l.length = 256) (hinv : Sinv x s l) :
    Sinv x (2 * s) (suffLevel (· * ·) s l) := by
  intro i hi
  have hil : i < l.length := by omega
  unfold suffLevel
  rw [applyIdx_getD0 _ _ l hil]
  dsimp only
  by_cases hlt : i + s < l.length
  · rw [if_pos hlt, getD_default_eq hlt (l.getD i 1) 1, hinv i hi,
      hinv (i + s) (by omega)]
    have h1 : min s (256 - i) = s := by omega
    rw [h1]
    have h2 := seg_append x i s (min s (256 - (i + s)))
    rw [h2]
    congr 1
    omega
  · rw [if_neg hlt, hinv i hi]
    congr 1
    omega

theorem suffScan_inv (x : Nat → M) (l : List M) (hlen : l.length = 256)
    (h0 : Sinv x 1 l) : Sinv x 256 (suffScan (· * ·) l) := by
  have h1 : Sinv x 2 (suffLevel (· * ·) 1 l) :=
    suffLevel_inv x 1 l (by norm_num) hlen h0
  have L1 : (suffLevel (· * ·) 1 l).length = 256 := by rw [suffLevel_length]; exact hlen
  have h2 : Sinv x 4 (suffLevel (· * ·) 2 (suffLevel (· * ·) 1 l)) :=
    suffLevel_inv x 2 _ (by norm_num) L1 h1
  have L2 : (suffLevel (· * ·) 2 (suffLevel (· * ·) 1 l)).length = 256 := by
    rw [suffLevel_length]; exact L1
  have h3 : Sinv x 8 (suffLevel (· * ·) 4 (suffLevel (· * ·) 2 (suffLevel (· * ·) 1 l))) :=
    suffLevel_inv x 4 _ (by norm_num) L2 h2
  have L3 : (suffLevel (· * ·) 4 (suffLevel (· * ·) 2 (suffLevel (· * ·) 1 l))).length
      = 256 := by rw [suffLevel_length]; exact L2
  have h4 : Sinv x 16 (suffLevel (· * ·) 8 (suffLevel (· * ·) 4 (suffLevel (· * ·) 2
      (suffLevel (· * ·) 1 l)))) := suffLevel_inv x 8 _ (by norm_num) L3 h3
  have L4 : (suffLevel (· * ·) 8 (suffLevel (· * ·) 4 (suffLevel (· * ·) 2
      (suffLevel (· * ·) 1 l)))).length = 256 := by rw [suffLevel_length]; exact L3
  have h5 : Sinv x 32 (suffLevel (· * ·) 16 (suffLevel (· * ·) 8 (suffLevel (· * ·) 4
      (suffLevel (· * ·) 2 (suffLevel (· * ·) 1 l))))) :=
    suffLevel_inv x 16 _ (by norm_num) L4 h4
  have L5 : (suffLevel (· * ·) 16 (suffLevel (· * ·) 8 (suffLevel (· * ·) 4
      (suffLevel (· * ·) 2 (suffLevel (· * ·) 1 l))))).length = 256 := by
    rw [suffLevel_length]; exact L4
  have h6 : Sinv x 64 (suffLevel (· * ·) 32 (suffLevel (· * ·) 16 (suffLevel (· * ·) 8
      (suffLevel (· * ·) 4 (suffLevel (· * ·) 2 (suffLevel (· * ·) 1 l)))))) :=
    suffLevel_inv x 32 _ (by norm_num) L5 h5
  have L6 : (suffLevel (· * ·) 32 (suffLevel (· * ·) 16 (suffLevel (· * ·) 8
      (suffLevel (· * ·) 4 (suffLevel (· * ·) 2 (suffLevel (· * ·) 1 l)))))).length
      = 256 := by rw [suffLevel_length]; exact L5
  have h7 : Sinv x 128 (suffLevel (· * ·) 64 (suffLevel (· * ·) 32 (suffLevel (· * ·) 16
      (suffLevel (· * ·) 8 (suffLevel (· * ·) 4 (suffLevel (· * ·) 2
      (suffLevel (· * ·) 1 l))))))) := suffLevel_inv x 64 _ (by norm_num) L6 h6
  have L7 : (suffLevel (· * ·) 64 (suffLevel (· * ·) 32 (suffLevel (· * ·) 16
      (suffLevel (· * ·) 8 (suffLevel (· * ·) 4 (suffLevel (· * ·) 2
      (suffLevel (· * ·) 1 l))))))).length = 256 := by rw [suffLevel_length]; exact L6
  have h8 : Sinv x 256 (suffLevel (· * ·) 128 (suffLevel (· * ·) 64 (suffLevel (· * ·) 32
      (suffLevel (· * ·) 16 (suffLevel (· * ·) 8 (suffLevel (· * ·) 4 (suffLevel (· * ·) 2
      (suffLevel (· * ·) 1 l)))))))) := suffLevel_inv x 128 _ (by norm_num) L7 h7
  have hexp : suffScan (· * ·) l = suffLevel (· * ·) 128 (suffLevel (· * ·) 64
      (suffLevel (· * ·) 32 (suffLevel (· * ·) 16 (suffLevel (· * ·) 8
      (suffLevel (· * ·) 4 (suffLevel (· * ·) 2 (suffLevel (· * ·) 1 l))))))) := rfl
  rw [hexp]
  exact h8

/-- Cell `i` of the suffix scan holds the product of lanes `i..255`. -/
theorem suffScan_getD (l : List M) (hlen : l.length = 256) {i : Nat} (hi : i < 256) :
    (suffScan (· * ·) l).getD i 1 = seg (fun j => l.getD j 1) i (256 - i) := by
  have h := suffScan_inv (fun j => l.getD j 1) l hlen (Sinv_init l) i hi
  rw [h]
  congr 1
  omega

/-- Down-sweep invariant before the level of stride `s`: cells below a
`2s`-aligned boundary hold the exclusive prefix product up to their
block, the others still hold their up-sweep value. -/
def Dinv (x : Nat → M) (s : Nat) (l : List M) : Prop :=
  ∀ i, i < 256 →
    (2 * s ∣ i + 1 → l.getD i 1 = seg x 0 (i + 1 - 2 * s)) ∧
    (¬ 2 * s ∣ i + 1 → ∃ k, 2 ^ k ∣ i + 1 ∧ ¬ 2 ^ (k + 1) ∣ i + 1 ∧ 2 ^ k ≤ s ∧
       l.getD i 1 = seg x (i + 1 - 2 ^ k) (2 ^ k))

theorem Dinv_init (x : Nat → M) (l : List M) (hlen : l.length = 256)
    (hinv : Uinv x 256 l) : Dinv x 128 (l.set 255 1) := by
  intro i hi
  constructor
  · intro hdvd
    have h255 : i = 255 := by
      have h2 := Nat.le_of_dvd (by omega) hdvd
      omega
    subst h255
    have hlt : (255 : Nat) < (l.set 255 1).length := by
      rw [List.length_set]; omega
    rw [List.getD_eq_getElem _ _ hlt, List.getElem_set_self]
    have e : 255 + 1 - 2 * 128 = 0 := by norm_num
    rw [e]
    exact (seg_zero x 0).symm
  · intro hnd
    have hi255 : i ≠ 255 := by
      rintro rfl
      exact hnd (by norm_num)
    obtain ⟨k, hk1, hk2⟩ := exists_lowbit (i + 1) (by omega)
    have hkle : 2 ^ k ≤ i + 1 := Nat.le_of_dvd (by omega) hk1
    have hk7 : k ≤ 7 := by
      by_contra hgt
      push_neg at hgt
      have h8 : (2 : Nat) ^ 8 ≤ 2 ^ k := Nat.pow_le_pow_of_le (by norm_num) (by omega)
      have e8 : (2 : Nat) ^ 8 = 256 := by norm_num
      omega
    refine ⟨k, hk1, hk2, ?_, ?_⟩
    · have h7 : (2 : Nat) ^ k ≤ 2 ^ 7 := Nat.pow_le_pow_of_le (by norm_num) hk7
      have e7 : (2 : Nat) ^ 7 = 128 := by norm_num
      omega
    · have hil : i < l.length := by omega
      have hlt : i < (l.set 255 1).length := by rw [List.length_set]; omega
      have hne : (255 : Nat) ≠ i := fun h => hi255 h.symm
      have ha : (l.set 255 1).getD i 1 = (l.set 255 1)[i] :=
        List.getD_eq_getElem _ _ hlt
      have hb : (l.set 255 1)[i] = l[i] := List.getElem_set_ne hne hlt
      have hc : l[i] = l.getD i 1 := (List.getD_eq_getElem l 1 hil).symm
      rw [ha, hb, hc]
      have hk2b : ¬ 2 * 2 ^ k ∣ i + 1 := by
        have e : (2 : Nat) * 2 ^ k = 2 ^ (k + 1) := by ring
        rw [e]
        exact hk2
      refine hinv i hi (2 ^ k) ?_ hk1 (Or.inl hk2b)
      have e8 : (256 : Nat) = 2 ^ 8 := by norm_num
      rw [e8]
      exact pow_dvd_pow 2 (by omega)

theorem downLevel_inv (x : Nat → M) (c : Nat) (l : List M) (hc : c ≤ 6)
    (hlen : l.length = 256) (hinv : Dinv x (2 ^ (c + 1)) l) :
    Dinv x (2 ^ c) (downLevel (· * ·) (2 ^ (c + 1)) l) := by
  have hpos1 : 0 < (2 : Nat) ^ (c + 1) := Nat.pow_pos (by norm_num)
  have hpow1 : (2 : Nat) * 2 ^ c = 2 ^ (c + 1) := by ring
  have hpow2 : (2 : Nat) * 2 ^ (c + 1) = 2 ^ (c + 2) := by ring
  have hdvd256 : 2 * 2 ^ (c + 1) ∣ 256 := by
    rw [hpow2]
    have e : (256 : Nat) = 2 ^ 8 := by norm_num
    rw [e]
    exact pow_dvd_pow 2 (by omega)
  intro i hi
  have hil : i < l.length := by omega
  unfold downLevel
  rw [applyIdx_getD0 _ _ l hil]
  dsimp only
  constructor
  · intro hdvd
    have hdvd2 : 2 ^ (c + 1) ∣ i + 1 := by rw [← hpow1]; exact hdvd
    have hsle : 2 ^ (c + 1) ≤ i + 1 := Nat.le_of_dvd (by omega) hdvd2
    by_cases hbig : 2 * 2 ^ (c + 1) ∣ i + 1
    · rw [if_pos (Nat.dvd_iff_mod_eq_zero.mp hbig)]
      have hge : 2 * 2 ^ (c + 1) ≤ i + 1 := Nat.le_of_dvd (by omega) hbig
      have hoi : l.getD i 1 = seg x 0 (i + 1 - 2 * 2 ^ (c + 1)) := (hinv i hi).1 hbig
      have hidx : i - 2 ^ (c + 1) < 256 := by omega
      have heq : i - 2 ^ (c + 1) + 1 = i + 1 - 2 ^ (c + 1) := by omega
      have hnb : ¬ 2 * 2 ^ (c + 1) ∣ i - 2 ^ (c + 1) + 1 := by
        rw [heq]
        exact not_two_stride_dvd_sub hpos1 (by omega) hbig
      obtain ⟨k, hk1, hk2, hk3, hk4⟩ := (hinv (i - 2 ^ (c + 1)) hidx).2 hnb
      have hsd : 2 ^ (c + 1) ∣ i - 2 ^ (c + 1) + 1 := by
        rw [heq]
        exact Nat.dvd_sub' hdvd2 dvd_rfl
      have hke : 2 ^ k = 2 ^ (c + 1) := pow_two_eq_of_exact hk2 hsd hk3
      rw [getD_default_eq (show i - 2 ^ (c + 1) < l.length by omega) (l.getD i 1) 1,
        hk4, hoi, hke, heq, mul_comm]
      have e1 : i + 1 - 2 ^ (c + 1) - 2 ^ (c + 1) = i + 1 - 2 * 2 ^ (c + 1) := by omega
      rw [e1]
      have h2 := seg_append x 0 (i + 1 - 2 * 2 ^ (c + 1)) (2 ^ (c + 1))
      rw [Nat.zero_add] at h2
      rw [h2]
      congr 1
      omega
    · have hg1 : ¬ (i + 1) % (2 * 2 ^ (c + 1)) = 0 :=
        fun h => hbig (Nat.dvd_iff_mod_eq_zero.mpr h)
      rw [if_neg hg1]
      have hadd : 2 * 2 ^ (c + 1) ∣ i + 1 + 2 ^ (c + 1) :=
        two_stride_dvd_add hdvd2 hbig
      have hilen : i + 2 ^ (c + 1) < l.length := by
        have h6 := add_stride_le hdvd256 hdvd2 hbig (show i + 1 ≤ 256 by omega)
        omega
      rw [if_pos ⟨Nat.dvd_iff_mod_eq_zero.mp hadd, hilen⟩]
      have hni : i + 2 ^ (c + 1) < 256 := by omega
      have hdp : 2 * 2 ^ (c + 1) ∣ i + 2 ^ (c + 1) + 1 := by
        have e : i + 2 ^ (c + 1) + 1 = i + 1 + 2 ^ (c + 1) := by omega
        rw [e]
        exact hadd
      have hval := (hinv (i + 2 ^ (c + 1)) hni).1 hdp
      rw [getD_default_eq (show i + 2 ^ (c + 1) < l.length by omega) (l.getD i 1) 1,
        hval]
      congr 1
      omega
  · intro hnd
    have hnd2 : ¬ 2 ^ (c + 1) ∣ i + 1 := by rw [← hpow1]; exact hnd
    have hnb : ¬ 2 * 2 ^ (c + 1) ∣ i + 1 :=
      fun h => hnd2 (dvd_trans ⟨2, by ring⟩ h)
    have hg1 : ¬ (i + 1) % (2 * 2 ^ (c + 1)) = 0 :=
      fun h => hnb (Nat.dvd_iff_mod_eq_zero.mpr h)
    rw [if_neg hg1]
    have hg2 : ¬ ((i + 1 + 2 ^ (c + 1)) % (2 * 2 ^ (c + 1)) = 0 ∧
        i + 2 ^ (c + 1) < l.length) := by
      rintro ⟨h, -⟩
      apply hnd2
      have hd2 : 2 * 2 ^ (c + 1) ∣ i + 1 + 2 ^ (c + 1) := Nat.dvd_iff_mod_eq_zero.mpr h
      have hd3 : 2 ^ (c + 1) ∣ i + 1 + 2 ^ (c + 1) := dvd_trans ⟨2, by ring⟩ hd2
      have hd4 := Nat.dvd_sub' hd3 (dvd_refl (2 ^ (c + 1)))
      have e : i + 1 + 2 ^ (c + 1) - 2 ^ (c + 1) = i + 1 := by omega
      rw [e] at hd4
      exact hd4
    rw [if_neg hg2]
    obtain ⟨k, hk1, hk2, hk3, hk4⟩ := (hinv i hi).2 hnb
    refine ⟨k, hk1, hk2, ?_, hk4⟩
    have hne : 2 ^ k ≠ 2 ^ (c + 1) := by
      intro h
      apply hnd2
      rw [← h]
      exact hk1
    have hkc : k ≤ c + 1 := (Nat.pow_le_pow_iff_right (by norm_num)).mp hk3
    have hkc2 : k ≠ c + 1 := fun h => hne (by rw [h])
    exact Nat.pow_le_pow_of_le (by norm_num) (by omega)

theorem downLevel_final (x : Nat → M) (l : List M) (hlen : l.length = 256)
    (hinv : Dinv x 1 l) :
    ∀ i, i < 256 → (downLevel (· * ·) 1 l).getD i 1 = seg x 0 i := by
  intro i hi
  have hil : i < l.length := by omega
  unfold downLevel
  rw [applyIdx_getD0 _ _ l hil]
  dsimp only
  by_cases hodd : 2 ∣ i + 1
  · have hg1 : (i + 1) % (2 * 1) = 0 := by omega
    rw [if_pos hg1]
    have hio : l.getD i 1 = seg x 0 (i + 1 - 2 * 1) := (hinv i hi).1 (by omega)
    have hi1 : 0 < i := by omega
    have hidx : i - 1 < 256 := by omega
    have hnd : ¬ 2 * 1 ∣ i - 1 + 1 := by omega
    obtain ⟨k, hk1, hk2, hk3, hk4⟩ := (hinv (i - 1) hidx).2 hnd
    have hk0 : k = 0 := by
      by_contra h
      have h1 : (2 : Nat) ^ 1 ≤ 2 ^ k := Nat.pow_le_pow_of_le (by norm_num) (by omega)
      have e : (2 : Nat) ^ 1 = 2 := by norm_num
      omega
    subst hk0
    have e0 : (2 : Nat) ^ 0 = 1 := by norm_num
    rw [e0] at hk4
    rw [getD_default_eq (show i - 1 < l.length by omega) (l.getD i 1) 1, hk4, hio]
    have e1 : i - 1 + 1 - 1 = i - 1 := by omega
    have e2 : i + 1 - 2 * 1 = i - 1 := by omega
    rw [e1, e2, mul_comm]
    have h2 := seg_append x 0 (i - 1) 1
    rw [Nat.zero_add] at h2
    rw [h2]
    congr 1
    omega
  · have hg1 : ¬ (i + 1) % (2 * 1) = 0 := by omega
    rw [if_neg hg1]
    have hlt : i + 1 < l.length := by omega
    rw [if_pos ⟨show (i + 1 + 1) % (2 * 1) = 0 by omega, hlt⟩]
    have hval := (hinv (i + 1) (by omega)).1 (by omega)
    rw [getD_default_eq hlt (l.getD i 1) 1, hval]
    have e3 : i + 1 + 1 - 2 * 1 = i := by omega
    rw [e3]

theorem downSweep_getD (x : Nat → M) (l : List M) (hlen : l.length = 256)
    (hinv : Uinv x 256 l) {i : Nat} (hi : i < 256) :
    (downSweep (· * ·) (l.set 255 1)).getD i 1 = seg x 0 i := by
  have hD7 : Dinv x 128 (l.set 255 1) := Dinv_init x l hlen hinv
  have L7 : (l.set 255 1).length = 256 := by rw [List.length_set]; exact hlen
  have hD6 : Dinv x 64 (downLevel (· * ·) 128 (l.set 255 1)) :=
    downLevel_inv x 6 _ (by norm_num) L7 hD7
  have L6 : (downLevel (· * ·) 128 (l.set 255 1)).length = 256 := by
    rw [downLevel_length]; exact L7
  have hD5 : Dinv x 32 (downLevel (· * ·) 64 (downLevel (· * ·) 128 (l.set 255 1))) :=
    downLevel_inv x 5 _ (by norm_num) L6 hD6
  have L5 : (downLevel (· * ·) 64 (downLevel (· * ·) 128 (l.set 255 1))).length
      = 256 := by rw [downLevel_length]; exact L6
  have hD4 : Dinv x 16 (downLevel (· * ·) 32 (downLevel (· * ·) 64 (downLevel (· * ·) 128
      (l.set 255 1)))) := downLevel_inv x 4 _ (by norm_num) L5 hD5
  have L4 : (downLevel (· * ·) 32 (downLevel (· * ·) 64 (downLevel (· * ·) 128
      (l.set 255 1)))).length = 256 := by rw [downLevel_length]; exact L5
  have hD3 : Dinv x 8 (downLevel (· * ·) 16 (downLevel (· * ·) 32 (downLevel (· * ·) 64
      (downLevel (· * ·) 128 (l.set 255 1))))) :=
    downLevel_inv x 3 _ (by norm_num) L4 hD4
  have L3 : (downLevel (· * ·) 16 (downLevel (· * ·) 32 (downLevel (· * ·) 64
      (downLevel (· * ·) 128 (l.set 255 1))))).length = 256 := by
    rw [downLevel_length]; exact L4
  have hD2 : Dinv x 4 (downLevel (· * ·) 8 (downLevel (· * ·) 16 (downLevel (· * ·) 32
      (downLevel (· * ·) 64 (downLevel (· * ·) 128 (l.set 255 1)))))) :=
    downLevel_inv x 2 _ (by norm_num) L3 hD3
  have L2 : (downLevel (· * ·) 8 (downLevel (· * ·) 16 (downLevel (· * ·) 32
      (downLevel (· * ·) 64 (downLevel (· * ·) 128 (l.set 255 1)))))).length = 256 := by
    rw [downLevel_length]; exact L3
  have hD1 : Dinv x 2 (downLevel (· * ·) 4 (downLevel (· * ·) 8 (downLevel (· * ·) 16
      (downLevel (· * ·) 32 (downLevel (· * ·) 64 (downLevel (· * ·) 128
      (l.set 255 1))))))) := downLevel_inv x 1 _ (by norm_num) L2 hD2
  have L1 : (downLevel (· * ·) 4 (downLevel (· * ·) 8 (downLevel (· * ·) 16
      (downLevel (· * ·) 32 (downLevel (· * ·) 64 (downLevel (· * ·) 128
      (l.set 255 1))))))).length = 256 := by rw [downLevel_length]; exact L2
  have hD0 : Dinv x 1 (downLevel (· * ·) 2 (downLevel (· * ·) 4 (downLevel (· * ·) 8
      (downLevel (· * ·) 16 (downLevel (· * ·) 32 (downLevel (· * ·) 64
      (downLevel (· * ·) 128 (l.set 255 1)))))))) :=
    downLevel_inv x 0 _ (by norm_num) L1 hD1
  have L0 : (downLevel (· * ·) 2 (downLevel (· * ·) 4 (downLevel (· * ·) 8
      (downLevel (· * ·) 16 (downLevel (· * ·) 32 (downLevel (· * ·) 64
      (downLevel (· * ·) 128 (l.set 255 1)))))))).length = 256 := by
    rw [downLevel_length]; exact L1
  have hfin := downLevel_final x _ L0 hD0 i hi
  have hexp : downSweep (· * ·) (l.set 255 1) = downLevel (· * ·) 1 (downLevel (· * ·) 2
      (downLevel (· * ·) 4 (downLevel (· * ·) 8 (downLevel (· * ·) 16
      (downLevel (· * ·) 32 (downLevel (· * ·) 64 (downLevel (· * ·) 128
      (l.set 255 1)))))))) := rfl
  rw [hexp]
  exact hfin

/-- Cell `i` of the full prefix pipeline (up-sweep, clear the root,
down-sweep) holds the exclusive prefix product of lanes `0..i-1`. -/
theorem downSweep_set_getD (l : List M) (hlen : l.length = 256) {i : Nat}
    (hi : i < 256) :
    (downSweep (· * ·) ((upSweep (· * ·) l).set 255 1)).getD i 1
      = seg (fun j => l.getD j 1) 0 i := by
  have hU : Uinv (fun j => l.getD j 1) 256 (upSweep (· * ·) l) :=
    upSweep_inv _ l hlen (Uinv_init l)
  have hL : (upSweep (· * ·) l).length = 256 := by rw [upSweep_length]; exact hlen
  exact downSweep_getD _ _ hL hU hi

end ScanChar

/-! ### Transport: the three kernel arrays over `ZMod p` -/

/-- Lane `i`'s field element. -/
def zAt (z : List (List Nat)) (i : Nat) : ZMod pval := toZ (z.getD i ONE)

theorem toZ_ONE : toZ ONE = 1 := by
  unfold toZ ONE
  norm_num [wval]

theorem seg_zAt (z : List (List Nat)) (a n : Nat) :
    seg (fun j => (z.map toZ).getD j 1) a n = ((List.range' a n).map (zAt z)).prod := by
  unfold seg
  congr 1
  apply List.map_congr_left
  intro j _
  show (z.map toZ).getD j 1 = zAt z j
  rw [show (1 : ZMod pval) = toZ ONE from toZ_ONE.symm, getD_map]
  rfl

/-- The three kernel scan arrays over the machine words are the images
of the same scans over canonical field elements, and those in turn map
onto the scans over `ZMod p`. -/
theorem scan_transport {z : List (List Nat)} (hlen : z.length = 256)
    (hval : ∀ w ∈ z, U256 w ∧ wval w < pval) :
    (prefixScan z
        = (downSweep fmul ((upSweep fmul (z.pmap (fun w h => (⟨w, h⟩ : FE)) hval)).set
            255 oneFE)).map Subtype.val ∧
      (downSweep fmul ((upSweep fmul (z.pmap (fun w h => (⟨w, h⟩ : FE)) hval)).set
            255 oneFE)).map toZF
        = downSweep (· * ·) ((upSweep (· * ·) (z.map toZ)).set 255 1)) ∧
    (upSweep mod_mul z
        = (upSweep fmul (z.pmap (fun w h => (⟨w, h⟩ : FE)) hval)).map Subtype.val ∧
      (upSweep fmul (z.pmap (fun w h => (⟨w, h⟩ : FE)) hval)).map toZF
        = upSweep (· * ·) (z.map toZ)) ∧
    (suffixScan z
        = (suffScan fmul (z.pmap (fun w h => (⟨w, h⟩ : FE)) hval)).map Subtype.val ∧
      (suffScan fmul (z.pmap (fun w h => (⟨w, h⟩ : FE)) hval)).map toZF
        = suffScan (· * ·) (z.map toZ)) := by
  have hv : (z.pmap (fun w h => (⟨w, h⟩ : FE)) hval).map Subtype.val = z := pmap_val z hval
  have ht : (z.pmap (fun w h => (⟨w, h⟩ : FE)) hval).map toZF = z.map toZ :=
    pmap_toZF z hval
  have hup_val : upSweep mod_mul z
      = (upSweep fmul (z.pmap (fun w h => (⟨w, h⟩ : FE)) hval)).map Subtype.val := by
    rw [map_upSweep Subtype.val fmul mod_mul (fun a b => rfl), hv]
  have hup_toZ : (upSweep fmul (z.pmap (fun w h => (⟨w, h⟩ : FE)) hval)).map toZF
      = upSweep (· * ·) (z.map toZ) := by
    rw [map_upSweep toZF fmul (· * ·) toZF_fmul, ht]
  refine ⟨⟨?_, ?_⟩, ⟨hup_val, hup_toZ⟩, ?_, ?_⟩
  · unfold prefixScan
    rw [hup_val, show (ONE : List Nat) = Subtype.val oneFE from rfl, ← List.map_set,
      map_downSweep Subtype.val fmul mod_mul (fun a b => rfl)]
  · rw [map_downSweep toZF fmul (· * ·) toZF_fmul, List.map_set, hup_toZ,
      show toZF oneFE = (1 : ZMod pval) from toZ_ONE]
  · unfold suffixScan
    rw [map_suffScan Subtype.val fmul mod_mul (fun a b => rfl), hv]
  · rw [map_suffScan toZF fmul (· * ·) toZF_fmul, ht]

theorem prefix_cell {z : List (List Nat)} (hlen : z.length = 256)
    (hval : ∀ w ∈ z, U256 w ∧ wval w < pval) {lid : Nat} (hlid : lid < 256) :
    toZ ((prefixScan z).getD lid ONE) = ((List.range lid).map (zAt z)).prod ∧
    U256 ((prefixScan z).getD lid ONE) ∧ wval ((prefixScan z).getD lid ONE) < pval := by
  obtain ⟨⟨hraw, hfield⟩, _, _⟩ := scan_transport hlen hval
  have hcell : (prefixScan z).getD lid ONE
      = ((downSweep fmul ((upSweep fmul (z.pmap (fun w h => (⟨w, h⟩ : FE)) hval)).set
          255 oneFE)).getD lid oneFE).1 := by
    rw [hraw, show (ONE : List Nat) = Subtype.val oneFE from rfl, getD_map]
  have hprop := ((downSweep fmul ((upSweep fmul (z.pmap (fun w h =>
      (⟨w, h⟩ : FE)) hval)).set 255 oneFE)).getD lid oneFE).2
  refine ⟨?_, hcell ▸ hprop.1, hcell ▸ hprop.2⟩
  have h1 : toZ ((prefixScan z).getD lid ONE)
      = toZF ((downSweep fmul ((upSweep fmul (z.pmap (fun w h =>
          (⟨w, h⟩ : FE)) hval)).set 255 oneFE)).getD lid oneFE) := by
    rw [hcell]; rfl
  have h2 : toZF ((downSweep fmul ((upSweep fmul (z.pmap (fun w h =>
      (⟨w, h⟩ : FE)) hval)).set 255 oneFE)).getD lid oneFE)
      = (downSweep (· * ·) ((upSweep (· * ·) (z.map toZ)).set 255 1)).getD lid 1 := by
    rw [← hfield, show (1 : ZMod pval) = toZF oneFE from toZ_ONE.symm, getD_map]
  rw [h1, h2, downSweep_set_getD (z.map toZ) (by rw [List.length_map]; exact hlen) hlid,
    seg_zAt, List.range_eq_range']

theorem total_cell {z : List (List Nat)} (hlen : z.length = 256)
    (hval : ∀ w ∈ z, U256 w ∧ wval w < pval) :
    toZ ((upSweep mod_mul z).getD 255 ONE) = ((List.range 256).map (zAt z)).prod ∧
    U256 ((upSweep mod_mul z).getD 255 ONE) := by
  obtain ⟨_, ⟨hraw, hfield⟩, _⟩ := scan_transport hlen hval
  have hcell : (upSweep mod_mul z).getD 255 ONE
      = ((upSweep fmul (z.pmap (fun w h => (⟨w, h⟩ : FE)) hval)).getD 255 oneFE).1 := by
    rw [hraw, show (ONE : List Nat) = Subtype.val oneFE from rfl, getD_map]
  have hprop := ((upSweep fmul (z.pmap (fun w h => (⟨w, h⟩ : FE)) hval)).getD
      255 oneFE).2
  refine ⟨?_, hcell ▸ hprop.1⟩
  have h1 : toZ ((upSweep mod_mul z).getD 255 ONE)
      = toZF ((upSweep fmul (z.pmap (fun w h => (⟨w, h⟩ : FE)) hval)).getD
          255 oneFE) := by
    rw [hcell]; rfl
  have h2 : toZF ((upSweep fmul (z.pmap (fun w h => (⟨w, h⟩ : FE)) hval)).getD
      255 oneFE)
      = (upSweep (· * ·) (z.map toZ)).getD 255 1 := by
    rw [← hfield, show (1 : ZMod pval) = toZF oneFE from toZ_ONE.symm, getD_map]
  rw [h1, h2, upSweep_getD_last (z.map toZ) (by rw [List.length_map]; exact hlen),
    seg_zAt, List.range_eq_range']

theorem suffix_cell {z : List (List Nat)} (hlen : z.length = 256)
    (hval : ∀ w ∈ z, U256 w ∧ wval w < pval) {j : Nat} (hj : j < 256) :
    toZ ((suffixScan z).getD j ONE) = ((List.range' j (256 - j)).map (zAt z)).prod ∧
    U256 ((suffixScan z).getD j ONE) := by
  obtain ⟨_, _, hraw, hfield⟩ := scan_transport hlen hval
  have hcell : (suffixScan z).getD j ONE
      = ((suffScan fmul (z.pmap (fun w h => (⟨w, h⟩ : FE)) hval)).getD j oneFE).1 := by
    rw [hraw, show (ONE : List Nat) = Subtype.val oneFE from rfl, getD_map]
  have hprop := ((suffScan fmul (z.pmap (fun w h => (⟨w, h⟩ : FE)) hval)).getD
      j oneFE).2
  refine ⟨?_, hcell ▸ hprop.1⟩
  have h1 : toZ ((suffixScan z).getD j ONE)
      = toZF ((suffScan fmul (z.pmap (fun w h => (⟨w, h⟩ : FE)) hval)).getD
          j oneFE) := by
    rw [hcell]; rfl
  have h2 : toZF ((suffScan fmul (z.pmap (fun w h => (⟨w, h⟩ : FE)) hval)).getD j oneFE)
      = (suffScan (· * ·) (z.map toZ)).getD j 1 := by
    rw [← hfield, show (1 : ZMod pval) = toZF oneFE from toZ_ONE.symm, getD_map]
  rw [h1, h2, suffScan_getD (z.map toZ) (by rw [List.length_map]; exact hlen) hj,
    seg_zAt]

/-! ## Claim C2 -/

/-- C2: for any 256 non-zero field elements `z_0 .. z_255` in `[0, p)`,
the workgroup batch-inversion sequence of the v4 kernel — Blelloch
up-sweep, one `mod_inv` of the total product, down-sweep to the
exclusive prefix products, right-to-left suffix scan, and the final
combination `invZ = prefix[lid] * total_inv * suffix[lid+1]` (suffix
factor omitted for lane 255) — produces in every lane the modular
inverse of that lane's element: `invZ[lid] * z_lid ≡ 1 (mod p)`, with
`invZ[lid]` a canonical field element. -/
theorem C2_batch_inversion {z : List (List Nat)} (hlen : z.length = 256)
    (hval : ∀ w ∈ z, U256 w ∧ wval w < pval) (hnz : ∀ w ∈ z, wval w ≠ 0)
    {lid : Nat} (hlid : lid < 256) :
    U256 (invZ z lid) ∧ wval (invZ z lid) < pval ∧
    toZ (invZ z lid) = (zAt z lid)⁻¹ ∧
    wval (invZ z lid) * wval (z.getD lid ONE) % pval = 1 := by
  obtain ⟨hpv, hpu, hpl⟩ := prefix_cell hlen hval hlid
  obtain ⟨htv, htu⟩ := total_cell hlen hval
  have htinv := mod_inv_spec htu
  have htinv_z : toZ (mod_inv ((upSweep mod_mul z).getD 255 ONE))
      = (((List.range 256).map (zAt z)).prod)⁻¹ := by
    rw [toZ_mod_inv htu, htv]
  have hzAt_ne : ∀ i, i < 256 → zAt z i ≠ 0 := by
    intro i hi
    have hilen : i < z.length := by omega
    have hmem : z.getD i ONE ∈ z := by
      rw [List.getD_eq_getElem z ONE hilen]
      exact List.getElem_mem hilen
    have h2 := hval _ hmem
    have h3 := hnz _ hmem
    unfold zAt
    rw [Ne, toZ_eq_zero_iff h2.2]
    exact h3
  have hprod_ne : ((List.range 256).map (zAt z)).prod ≠ 0 := by
    refine List.prod_ne_zero ?_
    intro h0
    rw [List.mem_map] at h0
    obtain ⟨i, hi, hzi⟩ := h0
    exact hzAt_ne i (List.mem_range.mp hi) hzi
  have hone_lt : (1 : Nat) < pval := by
    have h3 := pval_big
    omega
  by_cases hcase : lid < 255
  · obtain ⟨hsv, hsu⟩ := suffix_cell hlen hval (show lid + 1 < 256 by omega)
    have hm1 := mod_mul_spec hpu htinv.2.1
    have hm2 := mod_mul_spec hm1.2.1 hsu
    have hiz : invZ z lid
        = mod_mul (mod_mul ((prefixScan z).getD lid ONE)
            (mod_inv ((upSweep mod_mul z).getD 255 ONE)))
            ((suffixScan z).getD (lid + 1) ONE) := by
      unfold invZ totalInv
      rw [if_pos hcase]
    have hsplit : ((List.range 256).map (zAt z)).prod
        = ((List.range lid).map (zAt z)).prod * zAt z lid *
          ((List.range' (lid + 1) (256 - (lid + 1))).map (zAt z)).prod := by
      have e1 : ((List.range 256).map (zAt z)).prod = seg (zAt z) 0 256 := by
        rw [List.range_eq_range']; rfl
      have e2 : ((List.range lid).map (zAt z)).prod = seg (zAt z) 0 lid := by
        rw [List.range_eq_range']; rfl
      have e3 : ((List.range' (lid + 1) (256 - (lid + 1))).map (zAt z)).prod
          = seg (zAt z) (lid + 1) (256 - (lid + 1)) := rfl
      rw [e1, e2, e3, show zAt z lid = seg (zAt z) lid 1 from (seg_one (zAt z) lid).symm]
      have h5 := seg_append (zAt z) 0 lid 1
      rw [Nat.zero_add] at h5
      rw [h5]
      have h6 := seg_append (zAt z) 0 (lid + 1) (256 - (lid + 1))
      rw [Nat.zero_add] at h6
      rw [h6]
      congr 1
      omega
    have htoz : toZ (invZ z lid)
        = ((List.range lid).map (zAt z)).prod *
            (((List.range 256).map (zAt z)).prod)⁻¹ *
          ((List.range' (lid + 1) (256 - (lid + 1))).map (zAt z)).prod := by
      rw [hiz, toZ_mod_mul hm1.2.1 hsu, toZ_mod_mul hpu htinv.2.1, hpv, htinv_z, hsv]
    have hmul1 : toZ (invZ z lid) * zAt z lid = 1 := by
      rw [htoz]
      have hre : ((List.range lid).map (zAt z)).prod *
          (((List.range 256).map (zAt z)).prod)⁻¹ *
          ((List.range' (lid + 1) (256 - (lid + 1))).map (zAt z)).prod * zAt z lid
          = (((List.range lid).map (zAt z)).prod * zAt z lid *
             ((List.range' (lid + 1) (256 - (lid + 1))).map (zAt z)).prod) *
            (((List.range 256).map (zAt z)).prod)⁻¹ := by ring
      rw [hre, ← hsplit]
      exact mul_inv_cancel₀ hprod_ne
    have hmul2 : zAt z lid * toZ (invZ z lid) = 1 := by
      rw [mul_comm]
      exact hmul1
    have hinvz : toZ (invZ z lid) = (zAt z lid)⁻¹ :=
      (inv_eq_of_mul_eq_one_right hmul2).symm
    have hword : wval (invZ z lid) * wval (z.getD lid ONE) % pval = 1 := by
      have hc : ((wval (invZ z lid) * wval (z.getD lid ONE) : Nat) : ZMod pval) = 1 := by
        push_cast
        exact hmul1
      have h3 : wval (invZ z lid) * wval (z.getD lid ONE) ≡ 1 [MOD pval] :=
        (ZMod.natCast_eq_natCast_iff _ _ _).mp (by rw [Nat.cast_one]; exact hc)
      unfold Nat.ModEq at h3
      rw [Nat.mod_eq_of_lt hone_lt] at h3
      exact h3
    refine ⟨?_, ?_, hinvz, hword⟩
    · rw [hiz]
      exact hm2.2.1
    · rw [hiz]
      exact hm2.2.2
  · have h255 : lid = 255 := by omega
    subst h255
    have hm1 := mod_mul_spec hpu htinv.2.1
    have hiz : invZ z 255 = mod_mul ((prefixScan z).getD 255 ONE)
        (mod_inv ((upSweep mod_mul z).getD 255 ONE)) := by
      unfold invZ totalInv
      rw [if_neg hcase]
    have hsplit255 : ((List.range 256).map (zAt z)).prod
        = ((List.range 255).map (zAt z)).prod * zAt z 255 := by
      rw [show (256 : Nat) = 255 + 1 from rfl, List.range_succ, List.map_append,
        List.prod_append]
      simp
    have htoz : toZ (invZ z 255)
        = ((List.range 255).map (zAt z)).prod *
            (((List.range 256).map (zAt z)).prod)⁻¹ := by
      rw [hiz, toZ_mod_mul hpu htinv.2.1, hpv, htinv_z]
    have hmul1 : toZ (invZ z 255) * zAt z 255 = 1 := by
      rw [htoz]
      have hre : ((List.range 255).map (zAt z)).prod *
          (((List.range 256).map (zAt z)).prod)⁻¹ * zAt z 255
          = (((List.range 255).map (zAt z)).prod * zAt z 255) *
            (((List.range 256).map (zAt z)).prod)⁻¹ := by ring
      rw [hre, ← hsplit255]
      exact mul_inv_cancel₀ hprod_ne
    have hmul2 : zAt z 255 * toZ (invZ z 255) = 1 := by
      rw [mul_comm]
      exact hmul1
    have hinvz : toZ (invZ z 255) = (zAt z 255)⁻¹ :=
      (inv_eq_of_mul_eq_one_right hmul2).symm
    have hword : wval (invZ z 255) * wval (z.getD 255 ONE) % pval = 1 := by
      have hc : ((wval (invZ z 255) * wval (z.getD 255 ONE) : Nat) : ZMod pval) = 1 := by
        push_cast
        exact hmul1
      have h3 : wval (invZ z 255) * wval (z.getD 255 ONE) ≡ 1 [MOD pval] :=
        (ZMod.natCast_eq_natCast_iff _ _ _).mp (by rw [Nat.cast_one]; exact hc)
      unfold Nat.ModEq at h3
      rw [Nat.mod_eq_of_lt hone_lt] at h3
      exact h3
    refine ⟨?_, ?_, hinvz, hword⟩
    · rw [hiz]
      exact hm1.2.1
    · rw [hiz]
      exact hm1.2.2

/-- Witness for C2: the all-ones array at lane 0. -/
theorem C2_batch_inversion_witness :
    (List.replicate 256 ONE).length = 256 ∧
    (∀ w ∈ List.replicate 256 ONE, U256 w ∧ wval w < pval) ∧
    (∀ w ∈ List.replicate 256 ONE, wval w ≠ 0) ∧
    (0 : Nat) < 256 ∧
    (U256 (invZ (List.replicate 256 ONE) 0) ∧
     wval (invZ (List.replicate 256 ONE) 0) < pval ∧
     toZ (invZ (List.replicate 256 ONE) 0) = (zAt (List.replicate 256 ONE) 0)⁻¹ ∧
     wval (invZ (List.replicate 256 ONE) 0) *
       wval ((List.replicate 256 ONE).getD 0 ONE) % pval = 1) := by
  have hlen : (List.replicate 256 ONE).length = 256 := by simp
  have hval : ∀ w ∈ List.replicate 256 ONE, U256 w ∧ wval w < pval := by
    intro w hw
    rw [List.eq_of_mem_replicate hw]
    exact ONE_ok
  have hnz : ∀ w ∈ List.replicate 256 ONE, wval w ≠ 0 := by
    intro w hw
    rw [List.eq_of_mem_replicate hw]
    norm_num [ONE, wval]
  exact ⟨hlen, hval, hnz, by norm_num,
    C2_batch_inversion hlen hval hnz (by norm_num)⟩

/-! ## Claim C5: the pattern sanitizer (`getEthereumInput` / `isValidHex`)

Patterns are ASCII strings, modelled as lists of byte values
(48–57 = `0-9`, 97–102 = `a-f`, 65–70 = `A-F`, 120 = `x`). -/

/-- `isValidHex` from the ui package: every character is `0-9`, `a-f`
or `A-F`. -/
def isValidHex (s : List Nat) : Bool :=
  s.all fun c =>
    (decide (48 ≤ c) && decide (c ≤ 57)) ||
    (decide (97 ≤ c) && decide (c ≤ 102)) ||
    (decide (65 ≤ c) && decide (c ≤ 70))

/-- ASCII `strings.ToLower`, per character. -/
def toLowerByte (c : Nat) : Nat := if 65 ≤ c ∧ c ≤ 90 then c + 32 else c

/-- `strings.TrimPrefix(s, "0x")`. -/
def strip0x : List Nat → List Nat
  | c1 :: c2 :: rest => if c1 = 48 ∧ c2 = 120 then rest else c1 :: c2 :: rest
  | s => s

/-- The prefix branch of `getEthereumInput`: lowercase, strip `0x`, and
if any character is not hex, print a warning and continue with the
empty pattern. -/
def sanitizePre (input : List Nat) : List Nat :=
  if strip0x (input.map toLowerByte) ≠ [] ∧
      isValidHex (strip0x (input.map toLowerByte)) = false then []
  else strip0x (input.map toLowerByte)

/-- The suffix branch of `getEthereumInput`: lowercase, and if any
character is not hex, print a warning and continue with the empty
pattern. -/
def sanitizeSuf (input : List Nat) : List Nat :=
  if input.map toLowerByte ≠ [] ∧ isValidHex (input.map toLowerByte) = false then []
  else input.map toLowerByte

theorem mem_of_mem_strip0x {x : Nat} :
    ∀ {l : List Nat}, x ∈ strip0x l → x ∈ l
  | [], h => h
  | [_], h => h
  | a :: b :: rest, h => by
      have he : strip0x (a :: b :: rest)
          = if a = 48 ∧ b = 120 then rest else a :: b :: rest := rfl
      rw [he] at h
      by_cases hc : a = 48 ∧ b = 120
      · rw [if_pos hc] at h
        exact List.mem_cons_of_mem _ (List.mem_cons_of_mem _ h)
      · rw [if_neg hc] at h
        exact h

/-- C5 (corrected): the sanitizer rejects nothing.  A pattern with a
non-hex character becomes the *empty* pattern (the search proceeds with
only a console warning), a valid pattern of any length — even longer
than the 40 address nibbles — passes through unchanged apart from
lowercasing and `0x`-stripping, and no `InvalidPattern` error path
exists (the function is total).  The surviving pattern is always
lowercase hex. -/
theorem C5_pattern_sanitizer (input : List Nat) :
    isValidHex (sanitizePre input) = true ∧
    isValidHex (sanitizeSuf input) = true ∧
    (∀ c ∈ sanitizePre input, ¬ (65 ≤ c ∧ c ≤ 70)) ∧
    (isValidHex (strip0x (input.map toLowerByte)) = true →
      sanitizePre input = strip0x (input.map toLowerByte)) ∧
    (isValidHex (input.map toLowerByte) = true →
      sanitizeSuf input = input.map toLowerByte) := by
  refine ⟨?_, ?_, ?_, ?_, ?_⟩
  · unfold sanitizePre
    by_cases h : strip0x (input.map toLowerByte) ≠ [] ∧
        isValidHex (strip0x (input.map toLowerByte)) = false
    · rw [if_pos h]
      rfl
    · rw [if_neg h]
      push_neg at h
      by_cases h2 : strip0x (input.map toLowerByte) = []
      · rw [h2]
        rfl
      · cases hb : isValidHex (strip0x (input.map toLowerByte))
        · exact absurd hb (h h2)
        · rfl
  · unfold sanitizeSuf
    by_cases h : input.map toLowerByte ≠ [] ∧
        isValidHex (input.map toLowerByte) = false
    · rw [if_pos h]
      rfl
    · rw [if_neg h]
      push_neg at h
      by_cases h2 : input.map toLowerByte = []
      · rw [h2]
        rfl
      · cases hb : isValidHex (input.map toLowerByte)
        · exact absurd hb (h h2)
        · rfl
  · intro c hc
    have hmem0 : c ∈ strip0x (input.map toLowerByte) := by
      unfold sanitizePre at hc
      by_cases h : strip0x (input.map toLowerByte) ≠ [] ∧
          isValidHex (strip0x (input.map toLowerByte)) = false
      · rw [if_pos h] at hc
        exact absurd hc (List.not_mem_nil c)
      · rw [if_neg h] at hc
        exact hc
    have hmem : c ∈ input.map toLowerByte := mem_of_mem_strip0x hmem0
    obtain ⟨c0, _, rfl⟩ := List.mem_map.mp hmem
    unfold toLowerByte
    by_cases h : 65 ≤ c0 ∧ c0 ≤ 90
    · rw [if_pos h]
      omega
    · rw [if_neg h]
      omega
  · intro hvalid
    unfold sanitizePre
    rw [if_neg]
    intro ⟨_, hfalse⟩
    rw [hvalid] at hfalse
    exact Bool.noConfusion hfalse
  · intro hvalid
    unfold sanitizeSuf
    rw [if_neg]
    intro ⟨_, hfalse⟩
    rw [hvalid] at hfalse
    exact Bool.noConfusion hfalse

/-- Witness for C5 at the concrete input `"0xa"`. -/
theorem C5_pattern_sanitizer_witness :
    isValidHex (sanitizePre [48, 120, 97]) = true ∧
    isValidHex (sanitizeSuf [48, 120, 97]) = true ∧
    (∀ c ∈ sanitizePre [48, 120, 97], ¬ (65 ≤ c ∧ c ≤ 70)) ∧
    (isValidHex (strip0x (([48, 120, 97] : List Nat).map toLowerByte)) = true →
      sanitizePre [48, 120, 97] = strip0x (([48, 120, 97] : List Nat).map toLowerByte)) ∧
    (isValidHex (([48, 120, 97] : List Nat).map toLowerByte) = true →
      sanitizeSuf [48, 120, 97] = ([48, 120, 97] : List Nat).map toLowerByte) :=
  C5_pattern_sanitizer [48, 120, 97]

/-- C5 counterexample to the frozen claim: the invalid pattern `"ghi"`
(bytes 103 104 105) is not rejected with `InvalidPattern` — it becomes
the empty pattern and the search continues; and a 41-nibble pattern
(41 × `'1'`) exceeding the 40-nibble address width is accepted
unchanged rather than rejected. -/
theorem C5_pattern_counterexample :
    sanitizePre [103, 104, 105] = [] ∧
    sanitizeSuf [103, 104, 105] = [] ∧
    sanitizePre (List.replicate 41 49) = List.replicate 41 49 ∧
    (sanitizePre (List.replicate 41 49)).length = 41 := by decide

/-! ## Claim C6: private-key reconstruction and batch advance -/

/-- `big.Int.Bytes`: minimal big-endian bytes, empty for zero.  The
fuel of 64 bytes covers every value below `2^512`. -/
def beBytesAux : Nat → Nat → List Nat
  | 0, _ => []
  | fuel + 1, n => if n = 0 then [] else beBytesAux fuel (n / 256) ++ [n % 256]

def beBytes (n : Nat) : List Nat := beBytesAux 64 n

/-- The big-endian value of a byte list. -/
def beVal (l : List Nat) : Nat := l.foldl (fun acc b => acc * 256 + b) 0

/-- `pad32` from gpu.go: left-pad to 32 bytes; an input of 32 bytes or
more is returned unchanged. -/
def pad32 (b : List Nat) : List Nat :=
  if 32 ≤ b.length then b else List.replicate (32 - b.length) 0 ++ b

/-- `foundKey := baseInt + foundGid` — no reduction of any kind. -/
def foundKey (base gid : Nat) : Nat := base + gid

/-- The private-key byte string the host emits. -/
def privBytes (base gid : Nat) : List Nat := pad32 (beBytes (foundKey base gid))

/-- The per-batch advance `baseInt.Add(baseInt, batchSizeInt)` with
`batchSize = globalWorkSize = 2^20` — again no reduction. -/
def advanceBase (base : Nat) : Nat := base + 2 ^ 20

theorem beVal_append_singleton (l : List Nat) (b : Nat) :
    beVal (l ++ [b]) = beVal l * 256 + b := by
  unfold beVal
  rw [List.foldl_append]
  rfl

theorem beBytesAux_spec : ∀ (fuel n : Nat), n < 256 ^ fuel →
    beVal (beBytesAux fuel n) = n
  | 0, n, h => by
      have h0 : n = 0 := by
        have e : (256 : Nat) ^ 0 = 1 := by norm_num
        omega
      subst h0
      rfl
  | fuel + 1, n, h => by
      by_cases h0 : n = 0
      · subst h0
        simp [beBytesAux, beVal]
      · have hdiv : n / 256 < 256 ^ fuel := by
          rw [pow_succ] at h
          omega
        have ih := beBytesAux_spec fuel (n / 256) hdiv
        unfold beBytesAux
        rw [if_neg h0, beVal_append_singleton, ih]
        omega

theorem beBytesAux_length_le : ∀ (fuel k n : Nat), n < 256 ^ k →
    (beBytesAux fuel n).length ≤ k
  | 0, _, _, _ => by simp [beBytesAux]
  | fuel + 1, 0, n, h => by
      have h0 : n = 0 := by
        have e : (256 : Nat) ^ 0 = 1 := by norm_num
        omega
      subst h0
      simp [beBytesAux]
  | fuel + 1, k + 1, n, h => by
      by_cases h0 : n = 0
      · subst h0
        simp [beBytesAux]
      · have hdiv : n / 256 < 256 ^ k := by
          rw [pow_succ] at h
          omega
        have ih := beBytesAux_length_le fuel k (n / 256) hdiv
        unfold beBytesAux
        rw [if_neg h0, List.length_append]
        simp only [List.length_singleton]
        omega

theorem pad32_length {b : List Nat} (h : b.length ≤ 32) : (pad32 b).length = 32 := by
  unfold pad32
  by_cases h2 : 32 ≤ b.length
  · rw [if_pos h2]
    omega
  · rw [if_neg h2, List.length_append, List.length_replicate]
    omega

theorem beVal_replicate_zero_append (m : Nat) (b : List Nat) :
    beVal (List.replicate m 0 ++ b) = beVal b := by
  unfold beVal
  rw [List.foldl_append]
  congr 1
  induction m with
  | zero => rfl
  | succ k ih =>
      rw [List.replicate_succ, List.foldl_cons]
      simpa using ih

theorem beVal_pad32 (b : List Nat) : beVal (pad32 b) = beVal b := by
  unfold pad32
  by_cases h2 : 32 ≤ b.length
  · rw [if_pos h2]
  · rw [if_neg h2, beVal_replicate_zero_append]

/-- C6 (corrected): the host reconstructs `pk = b + gid` with *no*
reduction mod `2^256`, and advances `b` by `2^20` likewise unreduced.
Whenever `b + gid < 2^256` — every case that does not cross the
`2^256` boundary — the emitted encoding is exactly 32 big-endian bytes
whose value is `b + gid`, so the frozen claim holds there; at the
boundary the claim fails (see the counterexample). -/
theorem C6_key_reconstruction {base gid : Nat} (h : base + gid < 2 ^ 256) :
    foundKey base gid = (base + gid) % 2 ^ 256 ∧
    (privBytes base gid).length = 32 ∧
    beVal (privBytes base gid) = base + gid ∧
    advanceBase base = base + 2 ^ 20 := by
  have h2 : base + gid < 256 ^ 32 := by
    have e : (256 : Nat) ^ 32 = 2 ^ 256 := by norm_num
    omega
  have h3 : base + gid < 256 ^ 64 := by
    have e : (256 : Nat) ^ 32 ≤ 256 ^ 64 := Nat.pow_le_pow_of_le (by norm_num) (by norm_num)
    omega
  refine ⟨?_, ?_, ?_, rfl⟩
  · unfold foundKey
    rw [Nat.mod_eq_of_lt h]
  · unfold privBytes beBytes foundKey
    exact pad32_length (beBytesAux_length_le 64 32 (base + gid) h2)
  · unfold privBytes beBytes foundKey
    rw [beVal_pad32]
    exact beBytesAux_spec 64 (base + gid) h3

/-- Witness for C6 at `base = 5`, `gid = 7`. -/
theorem C6_key_reconstruction_witness :
    (5 : Nat) + 7 < 2 ^ 256 ∧
    (foundKey 5 7 = (5 + 7) % 2 ^ 256 ∧
     (privBytes 5 7).length = 32 ∧
     beVal (privBytes 5 7) = 5 + 7 ∧
     advanceBase 5 = 5 + 2 ^ 20) :=
  ⟨by norm_num, @C6_key_reconstruction 5 7 (by norm_num)⟩

/-- C6 counterexample to the frozen claim at the `2^256` boundary: for
`b = 2^256 - 1` and `gid = 1` the reconstructed key is `2^256` itself —
not `(b + gid) mod 2^256 = 0` — and the emitted encoding is 33 bytes,
not 32. -/
theorem C6_overflow_counterexample :
    foundKey (2 ^ 256 - 1) 1 ≠ (2 ^ 256 - 1 + 1) % 2 ^ 256 ∧
    (privBytes (2 ^ 256 - 1) 1).length = 33 := by decide

end HexHunter
